import Mathlib

/-!
Verification development for the `sanic_openapi/doc.py` schema serialization
engine.

The Python module is shallowly embedded:

* JSON-like output values (`Val`) may also carry raw, unserialized Python
  objects (`Val.vraw`), because `Tuple` inherits `Field.serialize` and the
  raw item list ends up in the output under the `description` key.
* Python dicts used as output fragments are ordered association lists
  (`Fragment`); dict literals such as `{"type": ..., **super().serialize()}`
  only ever merge key sets that are statically disjoint, so they are embedded
  as list concatenation, which coincides with Python's dict-literal semantics
  (first-occurrence order, no collisions).  The one place where a key may be
  written twice — the `getProperties` dict comprehension — uses `insertKV`,
  which has Python's update-in-place semantics.
* The global `definitions` registry is threaded explicitly (`Defs`); all
  registry-touching functions are fuel-indexed (`Option`-valued) because the
  Python recursion over classes and field references is unbounded in general.
  Total, registry-free mirrors (`pureSerialize`, `pureObject`, ...) of the
  same code are defined by well-founded recursion and proved to agree with
  the fueled semantics at sufficient fuel.
-/

namespace SanicDoc

/-- Tags for classes handled by the first (`issubclass(schema_type, type)`)
branch of `serialize_schema`: the builtin types mapped to default nodes and
the `Field` subclasses, which are instantiated with defaults
(`schema().serialize()`). -/
inductive TypeTag where
  | intT | floatT | strT | boolT | dateT | datetimeT | uuidT | dictT | listT
  | integerC | floatC | stringC | discriminatorC | booleanC | tupleC
  | dateC | datetimeC | fileC | uuidC | dictionaryC | jsonBodyC | listC
  deriving DecidableEq, Repr

mutual

/-- A JSON-like Python value appearing in serialized output.  `vraw` embeds a
raw (unserialized) schema object: `Field.serialize` writes `self.description`
into the output verbatim, and `List.serialize` constructs
`Tuple(self.items)`, which stores the raw item list as the description. -/
inductive Val where
  | vstr (s : String)
  | vbool (b : Bool)
  | varr (l : List Val)
  | vobj (l : List (String × Val))
  | vraw (s : Schema)

/-- The attributes set by `Field.__init__`: `name`, `description`,
`required` (a bool or a list of field names; the default is `[]`), and
`choices`. -/
inductive Attrs where
  | mk (name : Option String) (description : Option Val) (required : Req)
       (choices : Option (List Val))

/-- The `required` attribute of a `Field`: Python code passes either a bool
or a list of strings (the default is the empty list). -/
inductive Req where
  | rbool (b : Bool)
  | rlist (l : List String)

/-- A schema-node instance, i.e. an instance of a `Field` subclass
(`Object` instances are handled separately, see `ObjNode`). -/
inductive Node where
  | integer (a : Attrs)
  | float (a : Attrs)
  | strF (a : Attrs)
  | discriminatorF (a : Attrs)
  | boolean (a : Attrs)
  | tupleF (a : Attrs)
  | date (a : Attrs)
  | datetime (a : Attrs)
  | file (a : Attrs)
  | uuidF (a : Attrs)
  | dictionary (fields : List (String × Schema)) (a : Attrs)
  | jsonBody (fields : List (String × Schema)) (a : Attrs)
  | listF (items : List Schema) (a : Attrs)

/-- A value that can be passed to `serialize_schema`: a node instance, a
user-defined class (reflected through `Object`), a builtin type or `Field`
subclass (as a class), a raw dict, a raw list, a parameterized
`List`/`Sequence` typing generic, or anything else (serialized as `{}`). -/
inductive Schema where
  | node (n : Node)
  | cls (c : PyClass)
  | ofType (t : TypeTag)
  | rawDict (d : List (String × Schema))
  | rawList (l : List Schema)
  | generic (args : List Schema)
  | other

/-- A user-defined Python class as seen by `Object`: `__module__`,
`__qualname__`, `__name__`, the ordered `__dict__` items, the ordered
`__annotations__` items (`hints`), the discriminator name configured on the
class's `_meta` (if any), and `__bases__`. -/
inductive PyClass where
  | mk (module : String) (qualname : String) (name : String)
       (dict : List (String × Schema)) (hints : List (String × Schema))
       (metaDiscriminator : Option String) (bases : List PyClass)

end

namespace Attrs

def name : Attrs → Option String
  | .mk n _ _ _ => n

def description : Attrs → Option Val
  | .mk _ d _ _ => d

def required : Attrs → Req
  | .mk _ _ r _ => r

def choices : Attrs → Option (List Val)
  | .mk _ _ _ c => c

end Attrs

namespace PyClass

def module : PyClass → String
  | .mk m _ _ _ _ _ _ => m

def qualname : PyClass → String
  | .mk _ q _ _ _ _ _ => q

def name : PyClass → String
  | .mk _ _ n _ _ _ _ => n

def dict : PyClass → List (String × Schema)
  | .mk _ _ _ d _ _ _ => d

def hints : PyClass → List (String × Schema)
  | .mk _ _ _ _ h _ _ => h

def metaDiscriminator : PyClass → Option String
  | .mk _ _ _ _ _ md _ => md

def bases : PyClass → List PyClass
  | .mk _ _ _ _ _ _ b => b

end PyClass

/-- An output fragment: an ordered Python dict with string keys. -/
abbrev Fragment := List (String × Val)

/-- The keys of a fragment, in order. -/
def fragKeys (fr : Fragment) : List String := fr.map (·.1)

/-- Python dict lookup on an association list (first match). -/
def lookupKey : Fragment → String → Option Val
  | [], _ => none
  | (k', v) :: rest, k => if k' = k then some v else lookupKey rest k

/-- Python dict insertion: update in place if the key exists, else append. -/
def insertKV : Fragment → String → Val → Fragment
  | [], k, v => [(k, v)]
  | (k', v') :: rest, k, v =>
      if k' = k then (k', v) :: rest else (k', v') :: insertKV rest k v

/-- Python `dict.pop(key)` (for our use the popped value is discarded). -/
def popKey (fr : Fragment) (k : String) : Fragment := fr.filter (·.1 ≠ k)

/-- Python truthiness of an optional string (`if self.name:`): `None` and
`""` are falsy. -/
def optStrTruthy : Option String → Bool
  | none => false
  | some s => s ≠ ""

/-- Python truthiness of a `Val` (`if self.description:`): empty strings,
empty lists and empty dicts are falsy; raw objects are truthy. -/
def valTruthy : Val → Bool
  | .vstr s => s ≠ ""
  | .vbool b => b
  | .varr l => !l.isEmpty
  | .vobj l => !l.isEmpty
  | .vraw _ => true

/-- The test `self.required != []` in `Field.serialize`: a bool never equals
the empty list, a list fails the test exactly when it is empty. -/
def reqNeqEmptyList : Req → Bool
  | .rbool _ => true
  | .rlist l => l ≠ []

/-- The serialized form of the `required` attribute. -/
def reqVal : Req → Val
  | .rbool b => .vbool b
  | .rlist l => .varr (l.map .vstr)

/-- `Field.serialize`: emits `name`, `description`, `required` and `enum`
under their truthiness / `!= []` / `is not None` guards, in this order.
The four keys are distinct, so successive insertions into the fresh dict
amount to concatenation. -/
def fieldSerialize (a : Attrs) : Fragment :=
  (match a.name with
   | some n => if n ≠ "" then [("name", Val.vstr n)] else []
   | none => []) ++
  (match a.description with
   | some v => if valTruthy v then [("description", v)] else []
   | none => []) ++
  (if reqNeqEmptyList a.required then [("required", reqVal a.required)] else []) ++
  (match a.choices with
   | some c => [("enum", Val.varr c)]
   | none => [])

/-- Default `Field` attributes (`name=None, description=None, required=[],
choices=None`). -/
def defaultAttrs : Attrs := .mk none none (.rlist []) none

/-- `Integer.serialize`. -/
def integerSerialize (a : Attrs) : Fragment :=
  [("type", .vstr "integer"), ("format", .vstr "int64")] ++ fieldSerialize a

/-- `Float.serialize`. -/
def floatSerialize (a : Attrs) : Fragment :=
  [("type", .vstr "number"), ("format", .vstr "double")] ++ fieldSerialize a

/-- `String.serialize`; `Discriminator` inherits it unchanged. -/
def stringSerialize (a : Attrs) : Fragment :=
  [("type", .vstr "string")] ++ fieldSerialize a

/-- `Boolean.serialize`. -/
def booleanSerialize (a : Attrs) : Fragment :=
  [("type", .vstr "boolean")] ++ fieldSerialize a

/-- `Tuple` declares no `serialize` of its own, so it uses
`Field.serialize` unchanged. -/
def tupleSerialize (a : Attrs) : Fragment := fieldSerialize a

/-- `Date.serialize`. -/
def dateSerialize (a : Attrs) : Fragment :=
  [("type", .vstr "string"), ("format", .vstr "date")] ++ fieldSerialize a

/-- `DateTime.serialize`. -/
def dateTimeSerialize (a : Attrs) : Fragment :=
  [("type", .vstr "string"), ("format", .vstr "date-time")] ++ fieldSerialize a

/-- `File.serialize`. -/
def fileSerialize (a : Attrs) : Fragment :=
  [("type", .vstr "file")] ++ fieldSerialize a

/-- `UUID.serialize`. -/
def uuidSerialize (a : Attrs) : Fragment :=
  [("type", .vstr "string"), ("format", .vstr "uuid")] ++ fieldSerialize a

/-- `Tuple(self.items)` passes the raw item list positionally into
`Field.__init__`, whose first parameter is `description`.  The resulting
node therefore has `description = self.items` (a raw Python list of schema
objects) and all other attributes default. -/
def tupleOfItems (items : List Schema) : Attrs :=
  .mk none (some (.varr (items.map .vraw))) (.rlist []) none

/-- The default node constructed for a class handled by the type-dispatch
branch of `serialize_schema` (e.g. `int ↦ Integer()`, `dict ↦ Dictionary()`,
a `Field` subclass `C ↦ C()`). -/
def defaultNode : TypeTag → Node
  | .intT => .integer defaultAttrs
  | .floatT => .float defaultAttrs
  | .strT => .strF defaultAttrs
  | .boolT => .boolean defaultAttrs
  | .dateT => .date defaultAttrs
  | .datetimeT => .datetime defaultAttrs
  | .uuidT => .uuidF defaultAttrs
  | .dictT => .dictionary [] defaultAttrs
  | .listT => .listF [] defaultAttrs
  | .integerC => .integer defaultAttrs
  | .floatC => .float defaultAttrs
  | .stringC => .strF defaultAttrs
  | .discriminatorC => .discriminatorF defaultAttrs
  | .booleanC => .boolean defaultAttrs
  | .tupleC => .tupleF defaultAttrs
  | .dateC => .date defaultAttrs
  | .datetimeC => .datetime defaultAttrs
  | .fileC => .file defaultAttrs
  | .uuidC => .uuidF defaultAttrs
  | .dictionaryC => .dictionary [] defaultAttrs
  | .jsonBodyC => .jsonBody [] (.mk (some "body") none (.rlist []) none)
  | .listC => .listF [] defaultAttrs

end SanicDoc

namespace SanicDoc

/-- The state of a constructed `Object` instance: the reflected class, the
`object_name` attribute, the promoted `requiredList`, the computed
`properties` (field name ↦ serialized fragment, wrapped in `Val.vobj`), the
resolved discriminator name, and the `Field` attributes set by
`super().__init__`. -/
structure ObjNode where
  cls : PyClass
  object_name : String
  requiredList : List String
  properties : Fragment
  discriminator : Option String
  attrs : Attrs

/-- The definition registry `definitions`: an ordered mapping from a
canonical name to the constructed `Object` and its computed definition. -/
abbrev Defs := List (String × (ObjNode × Fragment))

/-- The registered names, in insertion order. -/
def defsKeys (d : Defs) : List String := d.map (·.1)

/-- Registry lookup (first match). -/
def lookupDef : Defs → String → Option (ObjNode × Fragment)
  | [], _ => none
  | (k', v) :: rest, k => if k' = k then some v else lookupDef rest k

/-- `if register_as not in definitions: definitions[register_as] = v` —
insert-if-absent, appending at the end (Python dict insertion order). -/
def insertIfAbsent (d : Defs) (k : String) (v : ObjNode × Fragment) : Defs :=
  if k ∈ defsKeys d then d else d ++ [(k, v)]

/-- First tier of `Object.getDiscriminatorName`: scan `cls.__dict__` (in
order, with no underscore filter) for a value whose class is exactly
`Discriminator`. -/
def scanDiscriminator : List (String × Schema) → Option String
  | [] => none
  | (k, .node (.discriminatorF _)) :: _ => some k
  | _ :: rest => scanDiscriminator rest

/-- `Object.getDiscriminatorName`: the first `Discriminator`-classed value in
`cls.__dict__` wins; otherwise the name configured on `cls._meta` is used,
provided it occurs among the computed properties; otherwise the result is
`None`. -/
def getDiscriminatorName (c : PyClass) (props : Fragment) : Option String :=
  match scanDiscriminator c.dict with
  | some k => some k
  | none =>
    match c.metaDiscriminator with
    | none => none
    | some d => if d ∈ fragKeys props then some d else none

/-- `Object.getDiscriminatorDef`: `{'discriminator': self.discriminator}`
when the discriminator is truthy, else `{}`. -/
def getDiscriminatorDef : Option String → Fragment
  | some d => if d ≠ "" then [("discriminator", .vstr d)] else []
  | none => []

/-- `Object.inheritanceRef`: one `$ref` per base class not named
`"object"`, referring to the base's simple `__name__`. -/
def inheritanceRef (c : PyClass) : List Val :=
  c.bases.filterMap fun b =>
    if b.name ≠ "object" then
      some (.vobj [("$ref", .vstr ("#/definitions/" ++ b.name))])
    else none

/-- The refs-free part of `Object.definition`: the dict literal
`{"type": "object", **getDiscriminatorDef(), "properties": self.properties,
**super().serialize()}`.  All merged key sets are disjoint, so the literal
is the concatenation. -/
def ownDefinition (o : ObjNode) : Fragment :=
  [("type", Val.vstr "object")] ++ getDiscriminatorDef o.discriminator ++
    [("properties", Val.vobj o.properties)] ++ fieldSerialize o.attrs

/-- `Object.definition`: wrap the own fragment in `allOf` after the base
refs when there are any, else return the own fragment. -/
def ObjNode.definition (o : ObjNode) : Fragment :=
  match inheritanceRef o.cls with
  | [] => ownDefinition o
  | refs => [("allOf", .varr (refs ++ [.vobj (ownDefinition o)]))]

/-- `Object.serialize`: `{"$ref": "#/definitions/<object_name>",
**super().serialize()}`. -/
def objSerialize (o : ObjNode) : Fragment :=
  [("$ref", .vstr ("#/definitions/" ++ o.object_name))] ++ fieldSerialize o.attrs

/-- The key `Object.__init__` registers under: the explicit `object_name`
override if given, else `"{}.{}".format(cls.__module__, cls.__qualname__)`.
Note this differs from the `object_name` *attribute*, whose fallback is the
simple `cls.__name__`. -/
def regKeyOf (c : PyClass) (objectName : Option String) : String :=
  objectName.getD (c.module ++ "." ++ c.qualname)

/-- The test `serialized['required'] == True` in `Object.getSerializedFields`
(guarded by `'required' in serialized`): the lookup must yield exactly the
boolean `True`.  Our `required` values are booleans or string lists (see
`Req`), for which Python equality with `True` holds only for `True` itself. -/
def isReqTrue : Option Val → Bool
  | some (.vbool true) => true
  | _ => false

/-- The test `key.startswith("_")` on a field name, written on the first
character so that it evaluates by kernel reduction. -/
def underscored (k : String) : Bool :=
  match k.data with
  | [] => false
  | c :: _ => c = '_'

/-- Packaging of the non-registry part of `Object.__init__` once the
properties and the promoted required list have been computed: resolve the
discriminator, append it to `requiredList` when truthy and not yet present,
and run `Field.__init__` with `kwargs['required'] = self.requiredList` (the
construction sites in `doc.py` — `serialize_schema` and the bases loop —
pass no further kwargs). -/
def mkObjNode (c : PyClass) (objectName : Option String)
    (props : Fragment) (reqL : List String) : ObjNode :=
  let disc := getDiscriminatorName c props
  let reqL' :=
    match disc with
    | some d => if d ≠ "" ∧ d ∉ reqL then reqL ++ [d] else reqL
    | none => reqL
  ⟨c, objectName.getD c.name, reqL', props, disc,
    .mk none none (.rlist reqL') none⟩

end SanicDoc

namespace SanicDoc

mutual

/-- Size of a schema value, used as a fuel bound. -/
def sizeS : Schema → Nat
  | .node n => 1 + sizeN n
  | .cls c => 1 + sizeC c
  | .ofType _ => 3
  | .rawDict d => 2 + sizeFields d
  | .rawList l => 2 + sizeItems l
  | .generic l => 2 + sizeItems l
  | .other => 1

/-- Size of a node. -/
def sizeN : Node → Nat
  | .dictionary fs _ => 1 + sizeFields fs
  | .jsonBody fs _ => 1 + sizeFields fs
  | .listF its _ => 1 + sizeItems its
  | _ => 1

/-- Size of a named field list. -/
def sizeFields : List (String × Schema) → Nat
  | [] => 0
  | (_, s) :: r => 1 + sizeS s + sizeFields r

/-- Size of an item list. -/
def sizeItems : List Schema → Nat
  | [] => 0
  | s :: r => 1 + sizeS s + sizeItems r

/-- Size of a class (its fields, hints and bases). -/
def sizeC : PyClass → Nat
  | .mk _ _ _ d h _ b => 1 + sizeFields d + sizeFields h + sizeBases b

/-- Size of a base-class list. -/
def sizeBases : List PyClass → Nat
  | [] => 0
  | c :: r => 1 + sizeC c + sizeBases r

end

theorem sizeC_eq (c : PyClass) :
    sizeC c = 1 + sizeFields c.dict + sizeFields c.hints + sizeBases c.bases := by
  cases c
  rfl

theorem sizeFields_append (l₁ l₂ : List (String × Schema)) :
    sizeFields (l₁ ++ l₂) = sizeFields l₁ + sizeFields l₂ := by
  induction l₁ with
  | nil => simp [sizeFields]
  | cons p r ih => simp [sizeFields, ih]; omega

theorem sizeN_defaultNode (t : TypeTag) : sizeN (defaultNode t) = 1 := by
  cases t <;> rfl

mutual

/-- Fueled embedding of `serialize_schema`, threading the `definitions`
registry.  Dispatch order follows the source: class values first (builtin
types and `Field` subclasses to default instances, any other class to
`Object(schema).serialize()`), then `Field` instances, raw dicts, raw lists
and `List`/`Sequence` generics; everything else serializes to `{}`. -/
def serializeSchemaF : Nat → Schema → Defs → Option (Fragment × Defs)
  | 0, _, _ => none
  | f + 1, s, defs =>
    match s with
    | .node n => nodeSerializeF f n defs
    | .cls c =>
      match objectInitF f c none defs with
      | some (obj, defs') => some (objSerialize obj, defs')
      | none => none
    | .ofType t => nodeSerializeF f (defaultNode t) defs
    | .rawDict d => nodeSerializeF f (.dictionary d defaultAttrs) defs
    | .rawList l => nodeSerializeF f (.listF l defaultAttrs) defs
    | .generic l => nodeSerializeF f (.listF l defaultAttrs) defs
    | .other => some ([], defs)

/-- Fueled embedding of `serialize()` on a node instance.  Leaves are pure;
`Dictionary`/`JsonBody` serialize their fields through `serialize_schema`;
`List` emits `Tuple(self.items).serialize()` for more than one item, the
single item's serialization for exactly one, and the empty Python list for
none. -/
def nodeSerializeF : Nat → Node → Defs → Option (Fragment × Defs)
  | 0, _, _ => none
  | f + 1, n, defs =>
    match n with
    | .integer a => some (integerSerialize a, defs)
    | .float a => some (floatSerialize a, defs)
    | .strF a => some (stringSerialize a, defs)
    | .discriminatorF a => some (stringSerialize a, defs)
    | .boolean a => some (booleanSerialize a, defs)
    | .tupleF a => some (tupleSerialize a, defs)
    | .date a => some (dateSerialize a, defs)
    | .datetime a => some (dateTimeSerialize a, defs)
    | .file a => some (fileSerialize a, defs)
    | .uuidF a => some (uuidSerialize a, defs)
    | .dictionary fs a =>
      match fieldsLoopF f fs [] defs with
      | some (props, defs') =>
        some ([("type", .vstr "object"), ("properties", .vobj props)] ++
          fieldSerialize a, defs')
      | none => none
    | .jsonBody fs a =>
      match fieldsLoopF f fs [] defs with
      | some (props, defs') =>
        some ([("schema",
          .vobj [("type", .vstr "object"), ("properties", .vobj props)])] ++
          fieldSerialize a, defs')
      | none => none
    | .listF items a =>
      match items with
      | [] => some ([("type", .vstr "array"), ("items", .varr [])] ++
          fieldSerialize a, defs)
      | [x] =>
        match serializeSchemaF f x defs with
        | some (fr, defs') =>
          some ([("type", .vstr "array"), ("items", .vobj fr)] ++
            fieldSerialize a, defs')
        | none => none
      | x :: y :: rest =>
        some ([("type", .vstr "array"),
          ("items", .vobj (tupleSerialize (tupleOfItems (x :: y :: rest))))] ++
          fieldSerialize a, defs)

/-- Fueled embedding of the `Dictionary`/`JsonBody` properties
comprehension `{key: serialize_schema(schema) for key, schema in
self.fields.items()}`. -/
def fieldsLoopF : Nat → List (String × Schema) → Fragment → Defs →
    Option (Fragment × Defs)
  | 0, _, _, _ => none
  | _ + 1, [], props, defs => some (props, defs)
  | f + 1, (k, s) :: rest, props, defs =>
    match serializeSchemaF f s defs with
    | some (fr, defs') => fieldsLoopF f rest (insertKV props k (.vobj fr)) defs'
    | none => none

/-- Fueled embedding of `Object.getProperties` /
`Object.getSerializedFields`: iterate `chain(cls.__dict__.items(),
cls.__annotations__.items())`, skip names starting with `"_"`, serialize
each candidate, and when the fragment's `required` key equals `True`
(exactly), pop the key and append the field name to `requiredList`. -/
def propsLoopF : Nat → List (String × Schema) → Fragment → List String →
    Defs → Option (Fragment × List String × Defs)
  | 0, _, _, _, _ => none
  | _ + 1, [], props, req, defs => some (props, req, defs)
  | f + 1, (k, s) :: rest, props, req, defs =>
    if underscored k then propsLoopF f rest props req defs
    else
      match serializeSchemaF f s defs with
      | some (fr, defs') =>
        if isReqTrue (lookupKey fr "required") then
          propsLoopF f rest (insertKV props k (.vobj (popKey fr "required")))
            (req ++ [k]) defs'
        else propsLoopF f rest (insertKV props k (.vobj fr)) req defs'
      | none => none

/-- Fueled embedding of `Object.__init__`: compute properties and the
promoted required list, resolve and promote the discriminator, register the
node and its definition under `regKeyOf` if that key is absent, then
recursively construct an `Object` for every base class not named
`"object"`. -/
def objectInitF : Nat → PyClass → Option String → Defs →
    Option (ObjNode × Defs)
  | 0, _, _, _ => none
  | f + 1, c, objectName, defs =>
    match propsLoopF f (c.dict ++ c.hints) [] [] defs with
    | none => none
    | some (props, reqL, defs1) =>
      let obj := mkObjNode c objectName props reqL
      let defs2 := insertIfAbsent defs1 (regKeyOf c objectName)
        (obj, obj.definition)
      match basesLoopF f c.bases defs2 with
      | some defs3 => some (obj, defs3)
      | none => none

/-- Fueled embedding of the bases loop at the end of `Object.__init__`. -/
def basesLoopF : Nat → List PyClass → Defs → Option Defs
  | 0, _, _ => none
  | _ + 1, [], defs => some defs
  | f + 1, b :: rest, defs =>
    if b.name = "object" then basesLoopF f rest defs
    else
      match objectInitF f b none defs with
      | some (_, defs') => basesLoopF f rest defs'
      | none => none

end

end SanicDoc

namespace SanicDoc

mutual

/-- Registry-free mirror of `serialize_schema`: the fragment it returns.
The registry is only written, never read, by the serialization code, so the
returned fragment is a pure function of the input; `pureAgree` below proves
the fueled semantics returns exactly this fragment. -/
def pureSerialize : Schema → Fragment
  | .node n => pureNodeSerialize n
  | .cls c => objSerialize (pureObject c none)
  | .ofType t => pureNodeSerialize (defaultNode t)
  | .rawDict d => pureNodeSerialize (.dictionary d defaultAttrs)
  | .rawList l => pureNodeSerialize (.listF l defaultAttrs)
  | .generic l => pureNodeSerialize (.listF l defaultAttrs)
  | .other => []
termination_by s => sizeS s
decreasing_by all_goals (simp only [sizeS, sizeN, sizeFields, sizeItems, sizeN_defaultNode, sizeC_eq, sizeFields_append]; omega)

/-- Registry-free mirror of node serialization. -/
def pureNodeSerialize : Node → Fragment
  | .integer a => integerSerialize a
  | .float a => floatSerialize a
  | .strF a => stringSerialize a
  | .discriminatorF a => stringSerialize a
  | .boolean a => booleanSerialize a
  | .tupleF a => tupleSerialize a
  | .date a => dateSerialize a
  | .datetime a => dateTimeSerialize a
  | .file a => fileSerialize a
  | .uuidF a => uuidSerialize a
  | .dictionary fs a =>
    [("type", .vstr "object"), ("properties", .vobj (pureFields fs []))] ++
      fieldSerialize a
  | .jsonBody fs a =>
    [("schema",
      .vobj [("type", .vstr "object"), ("properties", .vobj (pureFields fs []))])] ++
      fieldSerialize a
  | .listF items a =>
    match items with
    | [] => [("type", .vstr "array"), ("items", .varr [])] ++ fieldSerialize a
    | [x] => [("type", .vstr "array"), ("items", .vobj (pureSerialize x))] ++
        fieldSerialize a
    | x :: y :: rest =>
      [("type", .vstr "array"),
        ("items", .vobj (tupleSerialize (tupleOfItems (x :: y :: rest))))] ++
        fieldSerialize a
termination_by n => sizeN n
decreasing_by all_goals (simp only [sizeS, sizeN, sizeFields, sizeItems, sizeN_defaultNode, sizeC_eq, sizeFields_append]; omega)

/-- Registry-free mirror of the `Dictionary`/`JsonBody` field map. -/
def pureFields : List (String × Schema) → Fragment → Fragment
  | [], props => props
  | (k, s) :: rest, props => pureFields rest (insertKV props k (.vobj (pureSerialize s)))
termination_by l _ => sizeFields l
decreasing_by all_goals (simp only [sizeS, sizeN, sizeFields, sizeItems, sizeN_defaultNode, sizeC_eq, sizeFields_append]; omega)

/-- Registry-free mirror of `Object.getProperties` /
`Object.getSerializedFields` (see `propsLoopF`). -/
def purePropsLoop : List (String × Schema) → Fragment → List String →
    Fragment × List String
  | [], props, req => (props, req)
  | (k, s) :: rest, props, req =>
    if underscored k then purePropsLoop rest props req
    else
      if isReqTrue (lookupKey (pureSerialize s) "required") then
        purePropsLoop rest
          (insertKV props k (.vobj (popKey (pureSerialize s) "required")))
          (req ++ [k])
      else purePropsLoop rest (insertKV props k (.vobj (pureSerialize s))) req
termination_by l _ _ => sizeFields l
decreasing_by all_goals (simp only [sizeS, sizeN, sizeFields, sizeItems, sizeN_defaultNode, sizeC_eq, sizeFields_append]; omega)

/-- Registry-free mirror of the `ObjNode` computed by `Object.__init__`. -/
def pureObject (c : PyClass) (objectName : Option String) : ObjNode :=
  let pr := purePropsLoop (c.dict ++ c.hints) [] []
  mkObjNode c objectName pr.1 pr.2
termination_by sizeC c
decreasing_by all_goals (simp only [sizeS, sizeN, sizeFields, sizeItems, sizeN_defaultNode, sizeC_eq, sizeFields_append]; omega)

end

end SanicDoc

namespace SanicDoc

theorem lookupKey_append_of_none {a : Fragment} {k : String}
    (h : lookupKey a k = none) (b : Fragment) :
    lookupKey (a ++ b) k = lookupKey b k := by
  induction a with
  | nil => simp
  | cons p r ih =>
    obtain ⟨k', v⟩ := p
    by_cases hk : k' = k
    · simp [lookupKey, hk] at h
    · simp only [lookupKey, hk, if_false, List.cons_append] at h ⊢
      exact ih h

theorem lookupKey_append_of_some {a : Fragment} {k : String} {v : Val}
    (h : lookupKey a k = some v) (b : Fragment) :
    lookupKey (a ++ b) k = some v := by
  induction a with
  | nil => simp [lookupKey] at h
  | cons p r ih =>
    obtain ⟨k', v'⟩ := p
    by_cases hk : k' = k
    · simp only [lookupKey, hk, if_true] at h ⊢
      simpa using h
    · simp only [lookupKey, hk, if_false, List.cons_append] at h ⊢
      exact ih h

theorem lookupKey_eq_none_of_not_mem {fr : Fragment} {k : String}
    (h : k ∉ fragKeys fr) : lookupKey fr k = none := by
  induction fr with
  | nil => rfl
  | cons p r ih =>
    obtain ⟨k', v⟩ := p
    simp only [fragKeys, List.map_cons, List.mem_cons, not_or] at h
    have hne : ¬ k' = k := fun hh => h.1 hh.symm
    simp only [lookupKey, if_neg hne]
    exact ih h.2

theorem mem_fragKeys_of_lookup {fr : Fragment} {k : String} {v : Val}
    (h : lookupKey fr k = some v) : k ∈ fragKeys fr := by
  induction fr with
  | nil => simp [lookupKey] at h
  | cons p r ih =>
    obtain ⟨k', v'⟩ := p
    by_cases hk : k' = k
    · simp [fragKeys, hk]
    · simp only [lookupKey, hk, if_false] at h
      simp only [fragKeys, List.map_cons, List.mem_cons]
      exact Or.inr (ih h)

theorem lookupKey_insertKV_self (fr : Fragment) (k : String) (v : Val) :
    lookupKey (insertKV fr k v) k = some v := by
  induction fr with
  | nil => simp [insertKV, lookupKey]
  | cons p r ih =>
    obtain ⟨k', v'⟩ := p
    by_cases hk : k' = k <;> simp [insertKV, lookupKey, hk, ih]

theorem lookupKey_insertKV_ne {k' k : String} (fr : Fragment) (v : Val)
    (h : k' ≠ k) : lookupKey (insertKV fr k v) k' = lookupKey fr k' := by
  induction fr with
  | nil =>
    have hne : ¬ k = k' := fun hh => h hh.symm
    simp [insertKV, lookupKey, hne]
  | cons p r ih =>
    obtain ⟨k₀, v₀⟩ := p
    by_cases hk : k₀ = k <;> by_cases hk' : k₀ = k' <;>
      simp_all [insertKV, lookupKey]

theorem not_mem_fragKeys_popKey (fr : Fragment) (k : String) :
    k ∉ fragKeys (popKey fr k) := by
  intro h
  simp only [popKey, fragKeys, List.mem_map] at h
  obtain ⟨p, hp, hk⟩ := h
  have := (List.mem_filter.mp hp).2
  simp [hk] at this

end SanicDoc

namespace SanicDoc

theorem fragKeys_fieldSerialize (a : Attrs) :
    ∀ x ∈ fragKeys (fieldSerialize a),
      x = "name" ∨ x = "description" ∨ x = "required" ∨ x = "enum" := by
  obtain ⟨n, d, r, c⟩ := a
  intro x hx
  simp only [fieldSerialize, Attrs.name, Attrs.description, Attrs.required,
    Attrs.choices, fragKeys, List.map_append, List.mem_append] at hx
  rcases hx with ((h | h) | h) | h <;>
    [cases n; cases d; skip; cases c] <;>
    first
      | simp_all
      | (split at h <;> simp_all)

theorem lookupKey_append (a b : Fragment) (k : String) :
    lookupKey (a ++ b) k = (lookupKey a k).or (lookupKey b k) := by
  induction a with
  | nil => simp [lookupKey]
  | cons p r ih =>
    obtain ⟨k', v⟩ := p
    by_cases hk : k' = k <;> simp [lookupKey, hk, ih]

theorem lookupKey_descPart (b : Bool) (v : Val) :
    lookupKey (if b = true then [("description", v)] else []) "required" = none := by
  cases b <;> simp [lookupKey]

theorem lookupKey_fieldSerialize_required (a : Attrs) :
    lookupKey (fieldSerialize a) "required" =
      if reqNeqEmptyList a.required then some (reqVal a.required) else none := by
  obtain ⟨n, d, r, c⟩ := a
  simp only [fieldSerialize, Attrs.name, Attrs.description, Attrs.required,
    Attrs.choices, lookupKey_append]
  cases n <;> cases d <;> cases c <;> cases hr : reqNeqEmptyList r <;>
    (try split) <;> (try split) <;> (try split) <;>
      simp_all [lookupKey, lookupKey_descPart]

end SanicDoc

namespace SanicDoc

theorem lookupDef_append (a b : Defs) (k : String) :
    lookupDef (a ++ b) k = (lookupDef a k).or (lookupDef b k) := by
  induction a with
  | nil => simp [lookupDef]
  | cons p r ih =>
    obtain ⟨k', v⟩ := p
    by_cases hk : k' = k <;> simp [lookupDef, hk, ih]

theorem lookupDef_eq_none_of_not_mem {d : Defs} {k : String}
    (h : k ∉ defsKeys d) : lookupDef d k = none := by
  induction d with
  | nil => rfl
  | cons p r ih =>
    obtain ⟨k', v⟩ := p
    simp only [defsKeys, List.map_cons, List.mem_cons, not_or] at h
    have hne : ¬ k' = k := fun hh => h.1 hh.symm
    simp only [lookupDef, if_neg hne]
    exact ih h.2

theorem mem_defsKeys_of_lookup {d : Defs} {k : String} {v : ObjNode × Fragment}
    (h : lookupDef d k = some v) : k ∈ defsKeys d := by
  induction d with
  | nil => simp [lookupDef] at h
  | cons p r ih =>
    obtain ⟨k', v'⟩ := p
    by_cases hk : k' = k
    · simp [defsKeys, hk]
    · simp only [lookupDef, hk, if_false] at h
      simp only [defsKeys, List.map_cons, List.mem_cons]
      exact Or.inr (ih h)

theorem lookup_of_mem_defsKeys {d : Defs} {k : String}
    (h : k ∈ defsKeys d) : ∃ v, lookupDef d k = some v := by
  cases hv : lookupDef d k with
  | some v => exact ⟨v, rfl⟩
  | none =>
    induction d with
    | nil => simp [defsKeys] at h
    | cons p r ih =>
      obtain ⟨k', v'⟩ := p
      by_cases hk : k' = k
      · simp [lookupDef, hk] at hv
      · simp only [lookupDef, hk, if_false] at hv
        simp only [defsKeys, List.map_cons, List.mem_cons] at h
        rcases h with h | h
        · exact absurd h.symm hk
        · exact ih h hv

/-- Registry evolution, as produced by any run of the engine: (1) existing
entries keep their values — insert-if-absent never overwrites; (2) key
distinctness is preserved; (3) registered names stay registered. -/
def DefsLe (d d' : Defs) : Prop :=
  (∀ k v, lookupDef d k = some v → lookupDef d' k = some v) ∧
  ((defsKeys d).Nodup → (defsKeys d').Nodup) ∧
  (∀ k, k ∈ defsKeys d → k ∈ defsKeys d')

theorem DefsLe.rfl (d : Defs) : DefsLe d d :=
  ⟨fun _ _ h => h, id, fun _ h => h⟩

theorem DefsLe.trans {a b c : Defs} (h₁ : DefsLe a b) (h₂ : DefsLe b c) :
    DefsLe a c :=
  ⟨fun k v h => h₂.1 k v (h₁.1 k v h), fun h => h₂.2.1 (h₁.2.1 h),
    fun k h => h₂.2.2 k (h₁.2.2 k h)⟩

theorem defsKeys_append (a b : Defs) :
    defsKeys (a ++ b) = defsKeys a ++ defsKeys b := by
  simp [defsKeys]

theorem DefsLe_insertIfAbsent (d : Defs) (k : String) (v : ObjNode × Fragment) :
    DefsLe d (insertIfAbsent d k v) := by
  unfold insertIfAbsent
  by_cases hk : k ∈ defsKeys d
  · simp only [hk, if_true]
    exact DefsLe.rfl d
  · simp only [hk, if_false]
    refine ⟨?_, ?_, ?_⟩
    · intro k' v' h
      rw [lookupDef_append, h]
      rfl
    · intro h
      rw [defsKeys_append]
      have hdisj : List.Disjoint (defsKeys d) (defsKeys [(k, v)]) := by
        intro a ha hb
        simp only [defsKeys, List.map_cons, List.map_nil, List.mem_cons,
          List.not_mem_nil, or_false] at hb
        exact hk (hb ▸ ha)
      exact List.Nodup.append h (by simp [defsKeys]) hdisj
    · intro k' h
      rw [defsKeys_append]
      exact List.mem_append_left _ h

theorem mem_defsKeys_insertIfAbsent (d : Defs) (k : String)
    (v : ObjNode × Fragment) : k ∈ defsKeys (insertIfAbsent d k v) := by
  unfold insertIfAbsent
  by_cases hk : k ∈ defsKeys d
  · rw [if_pos hk]
    exact hk
  · rw [if_neg hk, defsKeys_append]
    exact List.mem_append_right _ (by simp [defsKeys])

end SanicDoc

namespace SanicDoc

/-- Any terminating run of the engine evolves the registry monotonically:
existing entries are never overwritten, keys stay distinct, and registered
names stay registered. -/
theorem defsEvolveAll : ∀ f : Nat,
    (∀ s defs r, serializeSchemaF f s defs = some r → DefsLe defs r.2) ∧
    (∀ n defs r, nodeSerializeF f n defs = some r → DefsLe defs r.2) ∧
    (∀ fs props defs r, fieldsLoopF f fs props defs = some r →
      DefsLe defs r.2) ∧
    (∀ ps props req defs r, propsLoopF f ps props req defs = some r →
      DefsLe defs r.2.2) ∧
    (∀ c nm defs r, objectInitF f c nm defs = some r → DefsLe defs r.2) ∧
    (∀ bs defs r, basesLoopF f bs defs = some r → DefsLe defs r) := by
  intro f
  induction f with
  | zero =>
    refine ⟨fun s defs r h => ?_, fun n defs r h => ?_,
      fun fs props defs r h => ?_, fun ps props req defs r h => ?_,
      fun c nm defs r h => ?_, fun bs defs r h => ?_⟩ <;>
      exact Option.noConfusion h
  | succ f ih =>
    obtain ⟨ihS, ihN, ihF, ihP, ihO, ihB⟩ := ih
    refine ⟨fun s defs r h => ?_, fun n defs r h => ?_,
      fun fs props defs r h => ?_, fun ps props req defs r h => ?_,
      fun c nm defs r h => ?_, fun bs defs r h => ?_⟩
    · -- serializeSchemaF
      cases s with
      | node n => exact ihN _ _ _ h
      | cls c =>
        simp only [serializeSchemaF] at h
        split at h
        · rename_i obj defs' heq
          obtain rfl : r = (objSerialize obj, defs') := (Option.some.inj h).symm
          exact ihO _ _ _ _ heq
        · exact Option.noConfusion h
      | ofType t => exact ihN _ _ _ h
      | rawDict d => exact ihN _ _ _ h
      | rawList l => exact ihN _ _ _ h
      | generic l => exact ihN _ _ _ h
      | other =>
        obtain rfl : r = ([], defs) := (Option.some.inj h).symm
        exact DefsLe.rfl defs
    · -- nodeSerializeF
      cases n with
      | integer a =>
        obtain rfl : r = (integerSerialize a, defs) := (Option.some.inj h).symm
        exact DefsLe.rfl defs
      | float a =>
        obtain rfl : r = (floatSerialize a, defs) := (Option.some.inj h).symm
        exact DefsLe.rfl defs
      | strF a =>
        obtain rfl : r = (stringSerialize a, defs) := (Option.some.inj h).symm
        exact DefsLe.rfl defs
      | discriminatorF a =>
        obtain rfl : r = (stringSerialize a, defs) := (Option.some.inj h).symm
        exact DefsLe.rfl defs
      | boolean a =>
        obtain rfl : r = (booleanSerialize a, defs) := (Option.some.inj h).symm
        exact DefsLe.rfl defs
      | tupleF a =>
        obtain rfl : r = (tupleSerialize a, defs) := (Option.some.inj h).symm
        exact DefsLe.rfl defs
      | date a =>
        obtain rfl : r = (dateSerialize a, defs) := (Option.some.inj h).symm
        exact DefsLe.rfl defs
      | datetime a =>
        obtain rfl : r = (dateTimeSerialize a, defs) := (Option.some.inj h).symm
        exact DefsLe.rfl defs
      | file a =>
        obtain rfl : r = (fileSerialize a, defs) := (Option.some.inj h).symm
        exact DefsLe.rfl defs
      | uuidF a =>
        obtain rfl : r = (uuidSerialize a, defs) := (Option.some.inj h).symm
        exact DefsLe.rfl defs
      | dictionary fs a =>
        simp only [nodeSerializeF] at h
        split at h
        · rename_i props' defs' heq
          obtain rfl : r = _ := (Option.some.inj h).symm
          exact ihF fs [] defs (props', defs') heq
        · exact Option.noConfusion h
      | jsonBody fs a =>
        simp only [nodeSerializeF] at h
        split at h
        · rename_i props' defs' heq
          obtain rfl : r = _ := (Option.some.inj h).symm
          exact ihF fs [] defs (props', defs') heq
        · exact Option.noConfusion h
      | listF items a =>
        cases items with
        | nil =>
          obtain rfl : r = _ := (Option.some.inj h).symm
          exact DefsLe.rfl defs
        | cons x tl =>
          cases tl with
          | nil =>
            simp only [nodeSerializeF] at h
            split at h
            · rename_i fr defs' heq
              obtain rfl : r = _ := (Option.some.inj h).symm
              exact ihS x defs (fr, defs') heq
            · exact Option.noConfusion h
          | cons y tl2 =>
            obtain rfl : r = _ := (Option.some.inj h).symm
            exact DefsLe.rfl defs
    · -- fieldsLoopF
      cases fs with
      | nil =>
        obtain rfl : r = (props, defs) := (Option.some.inj h).symm
        exact DefsLe.rfl defs
      | cons p rest =>
        obtain ⟨k, s⟩ := p
        simp only [fieldsLoopF] at h
        split at h
        · rename_i fr defs' heq
          exact DefsLe.trans (ihS _ _ _ heq) (ihF _ _ _ _ h)
        · exact Option.noConfusion h
    · -- propsLoopF
      cases ps with
      | nil =>
        obtain rfl : r = (props, req, defs) := (Option.some.inj h).symm
        exact DefsLe.rfl defs
      | cons p rest =>
        obtain ⟨k, s⟩ := p
        simp only [propsLoopF] at h
        by_cases hu : underscored k = true
        · rw [if_pos hu] at h
          exact ihP _ _ _ _ _ h
        · rw [if_neg hu] at h
          split at h
          · rename_i fr defs' heq
            split at h <;>
              exact DefsLe.trans (ihS _ _ _ heq) (ihP _ _ _ _ _ h)
          · exact Option.noConfusion h
    · -- objectInitF
      simp only [objectInitF] at h
      split at h
      · exact Option.noConfusion h
      · rename_i props reqL defs1 heq
        split at h
        · rename_i defs3 hb
          obtain rfl : r = _ := (Option.some.inj h).symm
          exact DefsLe.trans (ihP _ _ _ _ _ heq)
            (DefsLe.trans (DefsLe_insertIfAbsent _ _ _) (ihB _ _ _ hb))
        · exact Option.noConfusion h
    · -- basesLoopF
      cases bs with
      | nil =>
        obtain rfl : r = defs := (Option.some.inj h).symm
        exact DefsLe.rfl _
      | cons b rest =>
        simp only [basesLoopF] at h
        by_cases hb : b.name = "object"
        · rw [if_pos hb] at h
          exact ihB _ _ _ h
        · rw [if_neg hb] at h
          split at h
          · rename_i obj defs' heq
            exact DefsLe.trans (ihO _ _ _ _ heq) (ihB _ _ _ h)
          · exact Option.noConfusion h

end SanicDoc

namespace SanicDoc

/-- After any successful `Object.__init__`, the registration key is present
in the registry. -/
theorem objectInitF_registers {f : Nat} {c : PyClass} {nm : Option String}
    {defs : Defs} {obj : ObjNode} {defs' : Defs}
    (h : objectInitF f c nm defs = some (obj, defs')) :
    regKeyOf c nm ∈ defsKeys defs' := by
  cases f with
  | zero => exact Option.noConfusion h
  | succ f =>
    simp only [objectInitF] at h
    split at h
    · exact Option.noConfusion h
    · rename_i props reqL defs1 heq
      split at h
      · rename_i defs3 hb
        have h2 := Option.some.inj h
        simp only [Prod.mk.injEq] at h2
        obtain ⟨rfl, rfl⟩ := h2
        exact ((defsEvolveAll f).2.2.2.2.2 _ _ _ hb).2.2 _
          (mem_defsKeys_insertIfAbsent _ _ _)
      · exact Option.noConfusion h

/-- With fuel strictly above the input's size, every run of the engine
succeeds; the returned fragment (resp. constructed node) is the pure,
registry-independent mirror of the input. -/
theorem pureRunAll : ∀ f : Nat,
    (∀ s defs, sizeS s < f →
      ∃ defs', serializeSchemaF f s defs = some (pureSerialize s, defs')) ∧
    (∀ n defs, sizeN n < f →
      ∃ defs', nodeSerializeF f n defs = some (pureNodeSerialize n, defs')) ∧
    (∀ fs props defs, sizeFields fs < f →
      ∃ defs', fieldsLoopF f fs props defs = some (pureFields fs props, defs')) ∧
    (∀ ps props req defs, sizeFields ps < f →
      ∃ defs', propsLoopF f ps props req defs =
        some ((purePropsLoop ps props req).1,
          (purePropsLoop ps props req).2, defs')) ∧
    (∀ c nm defs, sizeC c < f →
      ∃ defs', objectInitF f c nm defs = some (pureObject c nm, defs')) ∧
    (∀ bs defs, sizeBases bs < f → ∃ defs', basesLoopF f bs defs = some defs') := by
  intro f
  induction f with
  | zero =>
    refine ⟨fun s defs h => ?_, fun n defs h => ?_, fun fs props defs h => ?_,
      fun ps props req defs h => ?_, fun c nm defs h => ?_,
      fun bs defs h => ?_⟩ <;> exact absurd h (Nat.not_lt_zero _)
  | succ f ih =>
    obtain ⟨ihS, ihN, ihF, ihP, ihO, ihB⟩ := ih
    refine ⟨fun s defs hsz => ?_, fun n defs hsz => ?_,
      fun fs props defs hsz => ?_, fun ps props req defs hsz => ?_,
      fun c nm defs hsz => ?_, fun bs defs hsz => ?_⟩
    · -- serializeSchemaF
      cases s with
      | node n =>
        obtain ⟨defs', hd⟩ := ihN n defs (by simp only [sizeS] at hsz; omega)
        exact ⟨defs', by simp only [serializeSchemaF, pureSerialize]; exact hd⟩
      | cls c =>
        obtain ⟨defs', ho⟩ := ihO c none defs (by simp only [sizeS] at hsz; omega)
        refine ⟨defs', ?_⟩
        simp only [serializeSchemaF, pureSerialize]
        rw [ho]
      | ofType t =>
        obtain ⟨defs', hd⟩ := ihN (defaultNode t) defs
          (by simp only [sizeS] at hsz; rw [sizeN_defaultNode]; omega)
        exact ⟨defs', by simp only [serializeSchemaF, pureSerialize]; exact hd⟩
      | rawDict d =>
        obtain ⟨defs', hd⟩ := ihN (.dictionary d defaultAttrs) defs
          (by simp only [sizeS] at hsz; simp only [sizeN]; omega)
        exact ⟨defs', by simp only [serializeSchemaF, pureSerialize]; exact hd⟩
      | rawList l =>
        obtain ⟨defs', hd⟩ := ihN (.listF l defaultAttrs) defs
          (by simp only [sizeS] at hsz; simp only [sizeN]; omega)
        exact ⟨defs', by simp only [serializeSchemaF, pureSerialize]; exact hd⟩
      | generic l =>
        obtain ⟨defs', hd⟩ := ihN (.listF l defaultAttrs) defs
          (by simp only [sizeS] at hsz; simp only [sizeN]; omega)
        exact ⟨defs', by simp only [serializeSchemaF, pureSerialize]; exact hd⟩
      | other => exact ⟨defs, by simp [serializeSchemaF, pureSerialize]⟩
    · -- nodeSerializeF
      cases n with
      | integer a => exact ⟨defs, by simp [nodeSerializeF, pureNodeSerialize]⟩
      | float a => exact ⟨defs, by simp [nodeSerializeF, pureNodeSerialize]⟩
      | strF a => exact ⟨defs, by simp [nodeSerializeF, pureNodeSerialize]⟩
      | discriminatorF a => exact ⟨defs, by simp [nodeSerializeF, pureNodeSerialize]⟩
      | boolean a => exact ⟨defs, by simp [nodeSerializeF, pureNodeSerialize]⟩
      | tupleF a => exact ⟨defs, by simp [nodeSerializeF, pureNodeSerialize]⟩
      | date a => exact ⟨defs, by simp [nodeSerializeF, pureNodeSerialize]⟩
      | datetime a => exact ⟨defs, by simp [nodeSerializeF, pureNodeSerialize]⟩
      | file a => exact ⟨defs, by simp [nodeSerializeF, pureNodeSerialize]⟩
      | uuidF a => exact ⟨defs, by simp [nodeSerializeF, pureNodeSerialize]⟩
      | dictionary fs a =>
        obtain ⟨defs', hf⟩ := ihF fs [] defs (by simp only [sizeN] at hsz; omega)
        refine ⟨defs', ?_⟩
        simp only [nodeSerializeF, pureNodeSerialize]
        rw [hf]
      | jsonBody fs a =>
        obtain ⟨defs', hf⟩ := ihF fs [] defs (by simp only [sizeN] at hsz; omega)
        refine ⟨defs', ?_⟩
        simp only [nodeSerializeF, pureNodeSerialize]
        rw [hf]
      | listF items a =>
        cases items with
        | nil => exact ⟨defs, by simp [nodeSerializeF, pureNodeSerialize]⟩
        | cons x tl =>
          cases tl with
          | nil =>
            obtain ⟨defs', hx⟩ := ihS x defs
              (by simp only [sizeN, sizeItems] at hsz; omega)
            refine ⟨defs', ?_⟩
            simp only [nodeSerializeF, pureNodeSerialize]
            rw [hx]
          | cons y tl2 =>
            exact ⟨defs, by simp [nodeSerializeF, pureNodeSerialize]⟩
    · -- fieldsLoopF
      cases fs with
      | nil => exact ⟨defs, by simp [fieldsLoopF, pureFields]⟩
      | cons p rest =>
        obtain ⟨k, s⟩ := p
        simp only [sizeFields] at hsz
        obtain ⟨defs1, hs⟩ := ihS s defs (by omega)
        obtain ⟨defs2, hr⟩ := ihF rest
          (insertKV props k (.vobj (pureSerialize s))) defs1 (by omega)
        refine ⟨defs2, ?_⟩
        simp only [fieldsLoopF, pureFields]
        rw [hs]
        exact hr
    · -- propsLoopF
      cases ps with
      | nil => exact ⟨defs, by simp [propsLoopF, purePropsLoop]⟩
      | cons p rest =>
        obtain ⟨k, s⟩ := p
        simp only [sizeFields] at hsz
        by_cases hu : underscored k = true
        · obtain ⟨defs', hr⟩ := ihP rest props req defs (by omega)
          refine ⟨defs', ?_⟩
          simp only [propsLoopF, purePropsLoop, hu, if_true]
          exact hr
        · obtain ⟨defs1, hs⟩ := ihS s defs (by omega)
          by_cases hv : isReqTrue (lookupKey (pureSerialize s) "required") = true
          · obtain ⟨defs2, hr⟩ := ihP rest
              (insertKV props k (.vobj (popKey (pureSerialize s) "required")))
              (req ++ [k]) defs1 (by omega)
            refine ⟨defs2, ?_⟩
            simp only [propsLoopF, purePropsLoop, hu, if_false]
            rw [hs]
            simpa [hv] using hr
          · obtain ⟨defs2, hr⟩ := ihP rest
              (insertKV props k (.vobj (pureSerialize s))) req defs1 (by omega)
            refine ⟨defs2, ?_⟩
            simp only [propsLoopF, purePropsLoop, hu, if_false]
            rw [hs]
            simpa [hv] using hr
    · -- objectInitF
      have hc := sizeC_eq c
      obtain ⟨defs1, hp⟩ := ihP (c.dict ++ c.hints) [] [] defs
        (by rw [sizeFields_append]; omega)
      obtain ⟨defs3, hb⟩ := ihB c.bases
        (insertIfAbsent defs1 (regKeyOf c nm)
          (mkObjNode c nm (purePropsLoop (c.dict ++ c.hints) [] []).1
            (purePropsLoop (c.dict ++ c.hints) [] []).2,
          (mkObjNode c nm (purePropsLoop (c.dict ++ c.hints) [] []).1
            (purePropsLoop (c.dict ++ c.hints) [] []).2).definition))
        (by omega)
      refine ⟨defs3, ?_⟩
      simp only [objectInitF, pureObject]
      rw [hp]
      simp only []
      rw [hb]
    · -- basesLoopF
      cases bs with
      | nil => exact ⟨defs, by simp [basesLoopF]⟩
      | cons b rest =>
        simp only [sizeBases] at hsz
        by_cases hb : b.name = "object"
        · obtain ⟨defs', hr⟩ := ihB rest defs (by omega)
          refine ⟨defs', ?_⟩
          simp only [basesLoopF]
          rw [if_pos hb]
          exact hr
        · obtain ⟨defs1, ho⟩ := ihO b none defs (by omega)
          obtain ⟨defs2, hr⟩ := ihB rest defs1 (by omega)
          refine ⟨defs2, ?_⟩
          simp only [basesLoopF]
          rw [if_neg hb, ho]
          exact hr

end SanicDoc

namespace SanicDoc

/-- A candidate name absent from the processed pairs is untouched: its
properties entry and its count in the promoted required list are unchanged. -/
theorem purePropsLoop_skip {k : String} :
    ∀ (pairs : List (String × Schema)) (props : Fragment) (req : List String),
    k ∉ pairs.map Prod.fst →
    lookupKey (purePropsLoop pairs props req).1 k = lookupKey props k ∧
    List.count k (purePropsLoop pairs props req).2 = List.count k req := by
  intro pairs
  induction pairs with
  | nil => intro props req h; simp [purePropsLoop]
  | cons p rest ih =>
    intro props req h
    obtain ⟨k₀, s₀⟩ := p
    simp only [List.map_cons, List.mem_cons, not_or] at h
    obtain ⟨hk₀, hrest⟩ := h
    by_cases hu : underscored k₀ = true
    · simp only [purePropsLoop, hu, if_true]
      exact ih _ _ hrest
    · simp only [purePropsLoop, if_neg hu]
      by_cases hv : isReqTrue (lookupKey (pureSerialize s₀) "required") = true
      · simp only [if_pos hv]
        have hrec := ih (insertKV props k₀ (.vobj (popKey (pureSerialize s₀) "required")))
          (req ++ [k₀]) hrest
        refine ⟨?_, ?_⟩
        · rw [hrec.1]
          exact lookupKey_insertKV_ne _ _ hk₀
        · rw [hrec.2, List.count_append]
          have h0 : List.count k [k₀] = 0 := by
            simp [List.count_singleton, hk₀]
          omega
      · simp only [if_neg hv]
        have hrec := ih (insertKV props k₀ (.vobj (pureSerialize s₀))) req hrest
        exact ⟨by rw [hrec.1]; exact lookupKey_insertKV_ne _ _ hk₀, hrec.2⟩

/-- A uniquely-named, non-underscored candidate whose fragment carries
`required: True` (exactly) is promoted: the key is popped from its stored
fragment and the name is appended to the required list exactly once. -/
theorem purePropsLoop_hit_true {k : String} {s : Schema} :
    ∀ (pairs : List (String × Schema)) (props : Fragment) (req : List String),
    (k, s) ∈ pairs →
    List.count k (pairs.map Prod.fst) = 1 →
    underscored k = false →
    isReqTrue (lookupKey (pureSerialize s) "required") = true →
    lookupKey (purePropsLoop pairs props req).1 k =
      some (.vobj (popKey (pureSerialize s) "required")) ∧
    List.count k (purePropsLoop pairs props req).2 = List.count k req + 1 := by
  intro pairs
  induction pairs with
  | nil => intro props req hmem; simp at hmem
  | cons p rest ih =>
    intro props req hmem hcount hund hreq
    obtain ⟨k₀, s₀⟩ := p
    by_cases hk₀ : k₀ = k
    · subst hk₀
      have hrestcount : List.count k₀ (rest.map Prod.fst) = 0 := by
        simp only [List.map_cons, List.count_cons_self] at hcount
        omega
      have hnotin : k₀ ∉ rest.map Prod.fst :=
        fun hmem' => by simp [List.count_eq_zero.mp hrestcount] at hmem'
      have hs : s₀ = s := by
        rcases List.mem_cons.mp hmem with hh | hh
        · exact (Prod.ext_iff.mp hh.symm).2
        · exact absurd (List.mem_map_of_mem Prod.fst hh) hnotin
      subst hs
      have hu' : ¬ underscored k₀ = true := by simp [hund]
      simp only [purePropsLoop, if_neg hu', if_pos hreq]
      have hrec := purePropsLoop_skip rest
        (insertKV props k₀ (.vobj (popKey (pureSerialize s₀) "required")))
        (req ++ [k₀]) hnotin
      refine ⟨?_, ?_⟩
      · rw [hrec.1, lookupKey_insertKV_self]
      · rw [hrec.2, List.count_append]
        simp
    · have hk' : ¬ k = k₀ := fun hh => hk₀ hh.symm
      have hmem' : (k, s) ∈ rest := by
        rcases List.mem_cons.mp hmem with hh | hh
        · exact absurd (Prod.ext_iff.mp hh).1 hk'
        · exact hh
      have hcount' : List.count k (rest.map Prod.fst) = 1 := by
        simp only [List.map_cons] at hcount
        rwa [List.count_cons_of_ne hk'] at hcount
      by_cases hu : underscored k₀ = true
      · simp only [purePropsLoop, hu, if_true]
        exact ih _ _ hmem' hcount' hund hreq
      · simp only [purePropsLoop, if_neg hu]
        by_cases hv : isReqTrue (lookupKey (pureSerialize s₀) "required") = true
        · simp only [if_pos hv]
          have hrec := ih (insertKV props k₀ (.vobj (popKey (pureSerialize s₀) "required")))
            (req ++ [k₀]) hmem' hcount' hund hreq
          refine ⟨hrec.1, ?_⟩
          rw [hrec.2, List.count_append]
          have h0 : List.count k [k₀] = 0 := by
            simp [List.count_singleton, hk']
          omega
        · simp only [if_neg hv]
          exact ih (insertKV props k₀ (.vobj (pureSerialize s₀))) req hmem'
            hcount' hund hreq

/-- A uniquely-named, non-underscored candidate whose fragment does not
carry `required: True` (exactly) is stored verbatim and not promoted. -/
theorem purePropsLoop_hit_other {k : String} {s : Schema} :
    ∀ (pairs : List (String × Schema)) (props : Fragment) (req : List String),
    (k, s) ∈ pairs →
    List.count k (pairs.map Prod.fst) = 1 →
    underscored k = false →
    isReqTrue (lookupKey (pureSerialize s) "required") = false →
    lookupKey (purePropsLoop pairs props req).1 k = some (.vobj (pureSerialize s)) ∧
    List.count k (purePropsLoop pairs props req).2 = List.count k req := by
  intro pairs
  induction pairs with
  | nil => intro props req hmem; simp at hmem
  | cons p rest ih =>
    intro props req hmem hcount hund hreq
    obtain ⟨k₀, s₀⟩ := p
    by_cases hk₀ : k₀ = k
    · subst hk₀
      have hrestcount : List.count k₀ (rest.map Prod.fst) = 0 := by
        simp only [List.map_cons, List.count_cons_self] at hcount
        omega
      have hnotin : k₀ ∉ rest.map Prod.fst :=
        fun hmem' => by simp [List.count_eq_zero.mp hrestcount] at hmem'
      have hs : s₀ = s := by
        rcases List.mem_cons.mp hmem with hh | hh
        · exact (Prod.ext_iff.mp hh.symm).2
        · exact absurd (List.mem_map_of_mem Prod.fst hh) hnotin
      subst hs
      have hu' : ¬ underscored k₀ = true := by simp [hund]
      have hv' : ¬ isReqTrue (lookupKey (pureSerialize s₀) "required") = true := by
        simp [hreq]
      simp only [purePropsLoop, if_neg hu', if_neg hv']
      have hrec := purePropsLoop_skip rest
        (insertKV props k₀ (.vobj (pureSerialize s₀))) req hnotin
      exact ⟨by rw [hrec.1, lookupKey_insertKV_self], hrec.2⟩
    · have hk' : ¬ k = k₀ := fun hh => hk₀ hh.symm
      have hmem' : (k, s) ∈ rest := by
        rcases List.mem_cons.mp hmem with hh | hh
        · exact absurd (Prod.ext_iff.mp hh).1 hk'
        · exact hh
      have hcount' : List.count k (rest.map Prod.fst) = 1 := by
        simp only [List.map_cons] at hcount
        rwa [List.count_cons_of_ne hk'] at hcount
      by_cases hu : underscored k₀ = true
      · simp only [purePropsLoop, hu, if_true]
        exact ih _ _ hmem' hcount' hund hreq
      · simp only [purePropsLoop, if_neg hu]
        by_cases hv : isReqTrue (lookupKey (pureSerialize s₀) "required") = true
        · simp only [if_pos hv]
          have hrec := ih (insertKV props k₀ (.vobj (popKey (pureSerialize s₀) "required")))
            (req ++ [k₀]) hmem' hcount' hund hreq
          refine ⟨hrec.1, ?_⟩
          rw [hrec.2, List.count_append]
          have h0 : List.count k [k₀] = 0 := by
            simp [List.count_singleton, hk']
          omega
        · simp only [if_neg hv]
          exact ih (insertKV props k₀ (.vobj (pureSerialize s₀))) req hmem'
            hcount' hund hreq

end SanicDoc

namespace SanicDoc

/-- The `Field` attributes carried by a node. -/
def nodeAttrs : Node → Attrs
  | .integer a => a
  | .float a => a
  | .strF a => a
  | .discriminatorF a => a
  | .boolean a => a
  | .tupleF a => a
  | .date a => a
  | .datetime a => a
  | .file a => a
  | .uuidF a => a
  | .dictionary _ a => a
  | .jsonBody _ a => a
  | .listF _ a => a

/-- `serialize()` on any node emits the `required` key exactly when the
node's `required` attribute differs from the empty list, carrying the
attribute's serialized value (`Field.serialize`'s `if self.required != []`
guard; no subclass serializer emits a `required` key of its own). -/
theorem lookupKey_pureNodeSerialize_required (n : Node) :
    lookupKey (pureNodeSerialize n) "required" =
      if reqNeqEmptyList (nodeAttrs n).required then
        some (reqVal (nodeAttrs n).required) else none := by
  cases n with
  | dictionary fs a =>
    simp only [pureNodeSerialize, nodeAttrs, lookupKey_append, lookupKey]
    simp [lookupKey_fieldSerialize_required]
  | jsonBody fs a =>
    simp only [pureNodeSerialize, nodeAttrs, lookupKey_append, lookupKey]
    simp [lookupKey_fieldSerialize_required]
  | listF items a =>
    cases items with
    | nil =>
      simp only [pureNodeSerialize, nodeAttrs, lookupKey_append, lookupKey]
      simp [lookupKey_fieldSerialize_required]
    | cons x tl =>
      cases tl with
      | nil =>
        simp only [pureNodeSerialize, nodeAttrs, lookupKey_append, lookupKey]
        simp [lookupKey_fieldSerialize_required]
      | cons y tl2 =>
        simp only [pureNodeSerialize, nodeAttrs, lookupKey_append, lookupKey]
        simp [lookupKey_fieldSerialize_required]
  | integer a =>
    simp only [pureNodeSerialize, integerSerialize, nodeAttrs,
      lookupKey_append, lookupKey]
    simp [lookupKey_fieldSerialize_required]
  | float a =>
    simp only [pureNodeSerialize, floatSerialize, nodeAttrs,
      lookupKey_append, lookupKey]
    simp [lookupKey_fieldSerialize_required]
  | strF a =>
    simp only [pureNodeSerialize, stringSerialize, nodeAttrs,
      lookupKey_append, lookupKey]
    simp [lookupKey_fieldSerialize_required]
  | discriminatorF a =>
    simp only [pureNodeSerialize, stringSerialize, nodeAttrs,
      lookupKey_append, lookupKey]
    simp [lookupKey_fieldSerialize_required]
  | boolean a =>
    simp only [pureNodeSerialize, booleanSerialize, nodeAttrs,
      lookupKey_append, lookupKey]
    simp [lookupKey_fieldSerialize_required]
  | tupleF a =>
    simp only [pureNodeSerialize, tupleSerialize, nodeAttrs]
    simp [lookupKey_fieldSerialize_required]
  | date a =>
    simp only [pureNodeSerialize, dateSerialize, nodeAttrs,
      lookupKey_append, lookupKey]
    simp [lookupKey_fieldSerialize_required]
  | datetime a =>
    simp only [pureNodeSerialize, dateTimeSerialize, nodeAttrs,
      lookupKey_append, lookupKey]
    simp [lookupKey_fieldSerialize_required]
  | file a =>
    simp only [pureNodeSerialize, fileSerialize, nodeAttrs,
      lookupKey_append, lookupKey]
    simp [lookupKey_fieldSerialize_required]
  | uuidF a =>
    simp only [pureNodeSerialize, uuidSerialize, nodeAttrs,
      lookupKey_append, lookupKey]
    simp [lookupKey_fieldSerialize_required]

/-- In the refs-free part of `Object.definition`, the `required` key comes
only from `super().serialize()`. -/
theorem lookupKey_ownDefinition_required (o : ObjNode) :
    lookupKey (ownDefinition o) "required" =
      if reqNeqEmptyList o.attrs.required then
        some (reqVal o.attrs.required) else none := by
  have hdisc : lookupKey (getDiscriminatorDef o.discriminator) "required" = none := by
    cases o.discriminator with
    | none => rfl
    | some d =>
      simp only [getDiscriminatorDef]
      split <;> simp [lookupKey]
  simp [ownDefinition, lookupKey_append, lookupKey, hdisc,
    lookupKey_fieldSerialize_required]

/-- Inversion for a successful `Object.__init__`: the node is `mkObjNode`
applied to the computed properties and required list, the registry first
goes through the insert-if-absent registration, then through the bases
loop. -/
theorem objectInitF_inv {f : Nat} {c : PyClass} {nm : Option String}
    {defs : Defs} {obj : ObjNode} {defs' : Defs}
    (h : objectInitF f c nm defs = some (obj, defs')) :
    ∃ f' props reqL defs1,
      propsLoopF f' (c.dict ++ c.hints) [] [] defs = some (props, reqL, defs1) ∧
      obj = mkObjNode c nm props reqL ∧
      basesLoopF f' c.bases
        (insertIfAbsent defs1 (regKeyOf c nm) (obj, obj.definition)) =
        some defs' := by
  cases f with
  | zero => exact Option.noConfusion h
  | succ f =>
    simp only [objectInitF] at h
    split at h
    · exact Option.noConfusion h
    · rename_i props reqL defs1 heq
      split at h
      · rename_i defs3 hb
        have h2 := Option.some.inj h
        simp only [Prod.mk.injEq] at h2
        obtain ⟨rfl, rfl⟩ := h2
        exact ⟨f, props, reqL, defs1, heq, rfl, hb⟩
      · exact Option.noConfusion h

/-- The fields of the node built by `mkObjNode`. -/
theorem mkObjNode_cls (c : PyClass) (nm : Option String) (props : Fragment)
    (reqL : List String) : (mkObjNode c nm props reqL).cls = c := rfl

theorem mkObjNode_object_name (c : PyClass) (nm : Option String)
    (props : Fragment) (reqL : List String) :
    (mkObjNode c nm props reqL).object_name = nm.getD c.name := rfl

theorem mkObjNode_properties (c : PyClass) (nm : Option String)
    (props : Fragment) (reqL : List String) :
    (mkObjNode c nm props reqL).properties = props := rfl

theorem mkObjNode_attrs_required (c : PyClass) (nm : Option String)
    (props : Fragment) (reqL : List String) :
    (mkObjNode c nm props reqL).attrs.required =
      .rlist (mkObjNode c nm props reqL).requiredList := by
  simp only [mkObjNode]
  cases getDiscriminatorName c props <;> rfl

/-- Membership in the promoted required list is preserved by the
discriminator-append step of `Object.__init__`, and a name of count one
keeps count one. -/
theorem mkObjNode_requiredList_count (c : PyClass) (nm : Option String)
    (props : Fragment) (reqL : List String) (k : String)
    (h : List.count k reqL = 1) :
    List.count k (mkObjNode c nm props reqL).requiredList = 1 := by
  simp only [mkObjNode]
  cases hd : getDiscriminatorName c props with
  | none => exact h
  | some d =>
    by_cases hcond : d ≠ "" ∧ d ∉ reqL
    · simp only [if_pos hcond]
      have hk : k ∈ reqL := by
        have := List.count_pos_iff_mem.mp (by omega : 0 < List.count k reqL)
        exact this
      have hdk : ¬ k = d := fun hh => hcond.2 (hh ▸ hk)
      have hdk' : ¬ d = k := fun hh => hdk hh.symm
      rw [List.count_append, List.count_singleton]
      simp [hdk', h]
    · simp only [if_neg hcond]
      exact h

end SanicDoc

namespace SanicDoc

/-- `RouteField`: a schema-describable value with its parameter location,
required flag and description. -/
structure RouteField where
  field : Schema
  location : Option String
  required : Bool
  description : Option String

/-- `RouteSpec`: the per-handler documentation record.  The class attributes
default to `None`; `__init__` initializes `tags`, `consumes` and `response`
to fresh empty lists.  `route_specs` is a `defaultdict(RouteSpec)` keyed by
the handler function's identity, and every decorator mutates only its own
handler's record, so a sequence of annotations on one handler is embedded as
a sequence of `RouteSpec → RouteSpec` updates starting from `RouteSpec.init`. -/
structure RouteSpec where
  consumes : List RouteField
  consumes_content_type : Option (List (Option String))
  produces : Option RouteField
  produces_content_type : Option (List (Option String))
  summary : Option String
  description : Option String
  operation : Option String
  blueprint : Option String
  tags : List String
  exclude : Option Bool
  response : List (Nat × RouteField)

/-- The freshly constructed record a `defaultdict(RouteSpec)` supplies. -/
def RouteSpec.init : RouteSpec :=
  ⟨[], none, none, none, none, none, none, none, [], none, []⟩

/-- The `route(...)` decorator: every parameter that `is not None` is
assigned onto the record — including the sequence-valued `consumes` and
`response`, which are replaced wholesale, not appended to. -/
def routeD (s? d? : Option String) (c? : Option (List RouteField))
    (p? : Option RouteField) (cct? pct? : Option (List (Option String)))
    (e? : Option Bool) (r? : Option (List (Nat × RouteField)))
    (rs : RouteSpec) : RouteSpec :=
  let rs := match s? with | some v => { rs with summary := some v } | none => rs
  let rs := match d? with | some v => { rs with description := some v } | none => rs
  let rs := match c? with | some v => { rs with consumes := v } | none => rs
  let rs := match p? with | some v => { rs with produces := some v } | none => rs
  let rs := match cct? with
    | some v => { rs with consumes_content_type := some v } | none => rs
  let rs := match pct? with
    | some v => { rs with produces_content_type := some v } | none => rs
  let rs := match e? with | some v => { rs with exclude := some v } | none => rs
  match r? with | some v => { rs with response := v } | none => rs

/-- The `exclude(boolean)` decorator. -/
def excludeD (b : Bool) (rs : RouteSpec) : RouteSpec := { rs with exclude := some b }

/-- The `summary(text)` decorator. -/
def summaryD (t : String) (rs : RouteSpec) : RouteSpec := { rs with summary := some t }

/-- The `description(text)` decorator. -/
def descriptionD (t : String) (rs : RouteSpec) : RouteSpec :=
  { rs with description := some t }

/-- The `consumes(*args, content_type=None, location="query",
required=False)` decorator: one `RouteField` appended per argument, and the
content-type list re-assigned (`[content_type]`) on each iteration. -/
def consumesD (args : List Schema) (content_type : Option String)
    (location : String) (required : Bool) (rs : RouteSpec) : RouteSpec :=
  args.foldl (fun r a =>
    { r with consumes := r.consumes ++ [⟨a, some location, required, none⟩],
             consumes_content_type := some [content_type] }) rs

/-- The `produces(*args, description=None, content_type=None)` decorator:
with at least one argument, overwrite `produces` and
`produces_content_type`. -/
def producesD (args : List Schema) (description : Option String)
    (content_type : Option String) (rs : RouteSpec) : RouteSpec :=
  match args with
  | [] => rs
  | a :: _ =>
    { rs with produces := some ⟨a, none, false, description⟩,
              produces_content_type := some [content_type] }

/-- The `response(status_code, field, description=None)` decorator: append
one `(status_code, RouteField)` pair. -/
def responseD (status : Nat) (fld : Schema) (description : Option String)
    (rs : RouteSpec) : RouteSpec :=
  { rs with response := rs.response ++ [(status, ⟨fld, none, false, description⟩)] }

/-- The `tag(name)` decorator: append to `tags`. -/
def tagD (name : String) (rs : RouteSpec) : RouteSpec :=
  { rs with tags := rs.tags ++ [name] }

/-- The `operation(name)` decorator. -/
def operationD (name : String) (rs : RouteSpec) : RouteSpec :=
  { rs with operation := some name }

theorem consumesD_consumes : ∀ (args : List Schema) (rs : RouteSpec)
    (ct : Option String) (loc : String) (rq : Bool),
    (consumesD args ct loc rq rs).consumes =
      rs.consumes ++ args.map (fun a => ⟨a, some loc, rq, none⟩) := by
  intro args
  induction args with
  | nil => intro rs ct loc rq; simp [consumesD]
  | cons a rest ih =>
    intro rs ct loc rq
    simp only [consumesD, List.foldl_cons] at *
    rw [ih]
    simp

end SanicDoc

namespace SanicDoc

/-- `Integer()` with default attributes. -/
def integerDefault : Schema := .node (.integer defaultAttrs)

/-- `String()` with default attributes. -/
def stringDefault : Schema := .node (.strF defaultAttrs)

/-- `String(required=True)`. -/
def stringRequiredTrue : Schema := .node (.strF (.mk none none (.rbool true) none))

/-- `String(required=False)`. -/
def stringRequiredFalse : Schema := .node (.strF (.mk none none (.rbool false) none))

/-- A bare class `A` in module `m` with no fields, hints, meta or bases. -/
def clsW : PyClass := .mk "m" "A" "A" [] [] none []

/-- C1: for a `List` node with two or more items, `serialize()` computes
`items` as `Tuple(self.items).serialize()`.  `Tuple` inherits
`Field.serialize` unchanged and `Tuple(self.items)` passes the raw item
list as the `description` argument, so `List([Integer(), String()])`
actually serializes to `{"type": "array", "items": {"description":
[<Integer instance>, <String instance>]}}` — raw, unserialized `Field`
objects under a `description` key — and not to the Tuple-of-two encoding
`{"type":"array","items":{"type":"array","items":[{"type":"integer",
"format":"int64"},{"type":"string"}]}}` that the claim (and the clear
intent of the `Tuple` class) describes. -/
theorem c1_list_tuple_items_eval :
    serializeSchemaF 6
      (.node (.listF [integerDefault, stringDefault] defaultAttrs)) [] =
      some ([("type", .vstr "array"),
        ("items", .vobj [("description",
          .varr [.vraw integerDefault, .vraw stringDefault])])], []) ∧
    ([("type", Val.vstr "array"),
      ("items", Val.vobj [("description",
        Val.varr [.vraw integerDefault, .vraw stringDefault])])] : Fragment) ≠
      [("type", .vstr "array"),
        ("items", .vobj [("type", .vstr "array"),
          ("items", .varr [
            .vobj [("type", .vstr "integer"), ("format", .vstr "int64")],
            .vobj [("type", .vstr "string")]])])] :=
  ⟨rfl, by simp⟩

/-- C2 counterexample: a `List` with zero items serializes `items` as the
empty Python *list* (`items = []` in `List.serialize`), which is the JSON
array `[]`, not the empty mapping `{}` the claim states. -/
theorem c2_counterexample :
    serializeSchemaF 6 (.node (.listF [] defaultAttrs)) [] =
      some ([("type", .vstr "array"), ("items", .varr [])], []) ∧
    (Val.varr [] : Val) ≠ Val.vobj [] :=
  ⟨rfl, by simp⟩

/-- C2 (amended): for every `List` node constructed with zero items and any
attributes, `serialize()` returns `{"type": "array", "items": []}` (plus the
`Field.serialize` keys): the `items` key is the empty list, not an empty
mapping. -/
theorem c2_amended : ∀ (f : Nat) (a : Attrs) (defs : Defs)
    (res : Fragment × Defs),
    nodeSerializeF f (.listF [] a) defs = some res →
    lookupKey res.1 "items" = some (.varr []) ∧
    res.1 = [("type", .vstr "array"), ("items", .varr [])] ++ fieldSerialize a := by
  intro f a defs res h
  cases f with
  | zero => exact Option.noConfusion h
  | succ f =>
    obtain rfl : res = _ := (Option.some.inj h).symm
    refine ⟨?_, rfl⟩
    rw [lookupKey_append]
    simp [lookupKey]

/-- Witness for `c2_amended` at `List([])` with default attributes. -/
theorem c2_amended_witness :
    lookupKey ([("type", Val.vstr "array"), ("items", Val.varr [])] ++
      fieldSerialize defaultAttrs) "items" = some (.varr []) ∧
    ([("type", Val.vstr "array"), ("items", Val.varr [])] ++
      fieldSerialize defaultAttrs : Fragment) =
      [("type", .vstr "array"), ("items", .varr [])] ++ fieldSerialize defaultAttrs :=
  c2_amended 1 defaultAttrs []
    ([("type", .vstr "array"), ("items", .varr [])] ++ fieldSerialize defaultAttrs, [])
    (by rfl)

/-- C3 counterexample: reflecting the bare class `A` (module `m`) with no
`object_name` override registers the definition under the module-qualified
key `"m.A"`, while `serialize()` emits `{"$ref": "#/definitions/A"}` using
the simple name; `"A"` is not a registry key, so the `$ref` does not point
at a key present in the registry. -/
theorem c3_counterexample :
    (objectInitF 3 clsW none []).map (fun r => defsKeys r.2) = some ["m.A"] ∧
    (objectInitF 3 clsW none []).map
      (fun r => lookupKey (objSerialize r.1) "$ref") =
      some (some (.vstr "#/definitions/A")) ∧
    (objectInitF 3 clsW none []).map (fun r => decide ("A" ∈ defsKeys r.2)) =
      some false ∧
    "A" ≠ "m.A" :=
  ⟨rfl, rfl, rfl, by decide⟩

/-- C3 (amended): without an `object_name` override the definition is
registered under `"{module}.{qualname}"` while the `object_name` attribute —
and hence the `$ref` emitted by `serialize()` — uses the simple class name,
so the two differ; with an explicit override both the registry key and the
`$ref` use the override, and then the `$ref` does point at a registered
key. -/
theorem c3_amended :
    (∀ (f : Nat) (c : PyClass) (defs : Defs) (obj : ObjNode) (defs' : Defs),
      objectInitF f c none defs = some (obj, defs') →
      obj.object_name = c.name ∧
      (c.module ++ "." ++ c.qualname) ∈ defsKeys defs' ∧
      lookupKey (objSerialize obj) "$ref" =
        some (.vstr ("#/definitions/" ++ c.name))) ∧
    (∀ (f : Nat) (c : PyClass) (nm : String) (defs : Defs) (obj : ObjNode)
      (defs' : Defs),
      objectInitF f c (some nm) defs = some (obj, defs') →
      obj.object_name = nm ∧ nm ∈ defsKeys defs' ∧
      lookupKey (objSerialize obj) "$ref" =
        some (.vstr ("#/definitions/" ++ nm))) := by
  constructor
  · intro f c defs obj defs' h
    obtain ⟨f', props, reqL, defs1, hp, hobj, hb⟩ := objectInitF_inv h
    subst hobj
    refine ⟨rfl, ?_, ?_⟩
    · have := objectInitF_registers h
      simpa [regKeyOf] using this
    · simp [objSerialize, lookupKey, mkObjNode_object_name]
  · intro f c nm defs obj defs' h
    obtain ⟨f', props, reqL, defs1, hp, hobj, hb⟩ := objectInitF_inv h
    subst hobj
    refine ⟨rfl, ?_, ?_⟩
    · have := objectInitF_registers h
      simpa [regKeyOf] using this
    · simp [objSerialize, lookupKey, mkObjNode_object_name]

/-- Witness for `c3_amended` at the bare class `A`. -/
theorem c3_amended_witness :
    (mkObjNode clsW none [] []).object_name = clsW.name ∧
    (clsW.module ++ "." ++ clsW.qualname) ∈
      defsKeys [("m.A", (mkObjNode clsW none [] [],
        (mkObjNode clsW none [] []).definition))] ∧
    lookupKey (objSerialize (mkObjNode clsW none [] [])) "$ref" =
      some (.vstr ("#/definitions/" ++ clsW.name)) :=
  c3_amended.1 3 clsW [] (mkObjNode clsW none [] [])
    [("m.A", (mkObjNode clsW none [] [],
      (mkObjNode clsW none [] []).definition))] (by rfl)

end SanicDoc

namespace SanicDoc

/-- C4: registration is insert-if-absent and append-only.  Constructing an
`Object` twice for the same canonical name (starting from a registry with
distinct keys) leaves exactly one registry entry for that name, and no run
of `Object.__init__` ever overwrites an existing registry entry. -/
theorem c4_registration_idempotent :
    (∀ (f₁ f₂ : Nat) (c : PyClass) (nm : Option String) (defs : Defs)
      (o₁ : ObjNode) (defs₁ : Defs) (o₂ : ObjNode) (defs₂ : Defs),
      (defsKeys defs).Nodup →
      objectInitF f₁ c nm defs = some (o₁, defs₁) →
      objectInitF f₂ c nm defs₁ = some (o₂, defs₂) →
      List.count (regKeyOf c nm) (defsKeys defs₂) = 1) ∧
    (∀ (f : Nat) (c : PyClass) (nm : Option String) (defs : Defs)
      (o : ObjNode) (defs' : Defs) (k : String) (v : ObjNode × Fragment),
      objectInitF f c nm defs = some (o, defs') →
      lookupDef defs k = some v → lookupDef defs' k = some v) := by
  constructor
  · intro f₁ f₂ c nm defs o₁ defs₁ o₂ defs₂ hnd h₁ h₂
    have E₁ := (defsEvolveAll f₁).2.2.2.2.1 c nm defs (o₁, defs₁) h₁
    have E₂ := (defsEvolveAll f₂).2.2.2.2.1 c nm defs₁ (o₂, defs₂) h₂
    have hmem₁ : regKeyOf c nm ∈ defsKeys defs₁ := objectInitF_registers h₁
    have hmem₂ : regKeyOf c nm ∈ defsKeys defs₂ := E₂.2.2 _ hmem₁
    have hnd₂ : (defsKeys defs₂).Nodup := E₂.2.1 (E₁.2.1 hnd)
    exact List.count_eq_one_of_mem hnd₂ hmem₂
  · intro f c nm defs o defs' k v h hl
    exact ((defsEvolveAll f).2.2.2.2.1 c nm defs (o, defs') h).1 k v hl

/-- Witness for `c4_registration_idempotent`: reflecting the bare class `A`
twice from the empty registry leaves one `"m.A"` entry. -/
theorem c4_witness :
    List.count (regKeyOf clsW none)
      (defsKeys [("m.A", (mkObjNode clsW none [] [],
        (mkObjNode clsW none [] []).definition))]) = 1 :=
  c4_registration_idempotent.1 3 3 clsW none []
    (mkObjNode clsW none [] [])
    [("m.A", (mkObjNode clsW none [] [],
      (mkObjNode clsW none [] []).definition))]
    (mkObjNode clsW none [] [])
    [("m.A", (mkObjNode clsW none [] [],
      (mkObjNode clsW none [] []).definition))]
    (by decide) (by rfl) (by rfl)

/-- The keys the refs-free definition fragment can contain. -/
theorem fragKeys_ownDefinition (o : ObjNode) :
    ∀ x ∈ fragKeys (ownDefinition o),
      x = "type" ∨ x = "discriminator" ∨ x = "properties" ∨
      x = "name" ∨ x = "description" ∨ x = "required" ∨ x = "enum" := by
  intro x hx
  simp only [ownDefinition, fragKeys, List.map_append, List.mem_append] at hx
  rcases hx with ((h1 | h2) | h3) | h4
  · left; simpa using h1
  · right; left
    cases hd : o.discriminator with
    | none => simp [getDiscriminatorDef, hd] at h2
    | some d =>
      simp only [getDiscriminatorDef, hd] at h2
      split at h2 <;> simp_all
  · right; right; left; simpa using h3
  · have := fragKeys_fieldSerialize o.attrs x h4
    tauto

/-- C5: inheritance composition.  If `B`'s only direct base is a class `A`
not named `"object"`, the definition computed for `B` is
`{allOf: [{$ref: "#/definitions/A"}, <B's own fragment>]}` and constructing
`Object(B)` also registers a definition for `A` (under `A`'s
module-qualified key); a class with no bases gets the flat own fragment,
which has no `allOf` key. -/
theorem c5_inheritance_allof :
    (∀ (f : Nat) (B A : PyClass) (defs : Defs) (obj : ObjNode) (defs' : Defs),
      objectInitF f B none defs = some (obj, defs') →
      B.bases = [A] → A.name ≠ "object" →
      obj.definition = [("allOf",
        .varr [.vobj [("$ref", .vstr ("#/definitions/" ++ A.name))],
          .vobj (ownDefinition obj)])] ∧
      (A.module ++ "." ++ A.qualname) ∈ defsKeys defs') ∧
    (∀ (f : Nat) (c : PyClass) (defs : Defs) (obj : ObjNode) (defs' : Defs),
      objectInitF f c none defs = some (obj, defs') →
      c.bases = [] →
      obj.definition = ownDefinition obj ∧
      "allOf" ∉ fragKeys (ownDefinition obj)) := by
  constructor
  · intro f B A defs obj defs' h hbases hA
    obtain ⟨f', props, reqL, defs1, hp, hobj, hb⟩ := objectInitF_inv h
    have hcls : obj.cls = B := by rw [hobj]; rfl
    have href : inheritanceRef obj.cls =
        [.vobj [("$ref", .vstr ("#/definitions/" ++ A.name))]] := by
      rw [hcls]
      simp [inheritanceRef, hbases, hA]
    constructor
    · simp [ObjNode.definition, href]
    · rw [hbases] at hb
      cases f' with
      | zero => exact Option.noConfusion hb
      | succ f'' =>
        simp only [basesLoopF] at hb
        rw [if_neg hA] at hb
        split at hb
        · rename_i oA dA heqA
          have hfin : dA = defs' := by
            cases f'' with
            | zero => exact Option.noConfusion hb
            | succ f₃ => exact Option.some.inj hb
          have := objectInitF_registers heqA
          rw [hfin] at this
          simpa [regKeyOf] using this
        · exact Option.noConfusion hb
  · intro f c defs obj defs' h hbases
    obtain ⟨f', props, reqL, defs1, hp, hobj, hb⟩ := objectInitF_inv h
    have hcls : obj.cls = c := by rw [hobj]; rfl
    have href : inheritanceRef obj.cls = [] := by
      rw [hcls]; simp [inheritanceRef, hbases]
    refine ⟨by simp [ObjNode.definition, href], ?_⟩
    intro hmem
    rcases fragKeys_ownDefinition obj "allOf" hmem with
      h' | h' | h' | h' | h' | h' | h' <;> simp at h'

end SanicDoc

namespace SanicDoc

/-- A class `B` (module `m`) whose only base is `A`. -/
def clsWB : PyClass := .mk "m" "B" "B" [] [] none [clsW]

/-- Witness for `c5_inheritance_allof` at `B(A)`. -/
theorem c5_witness :
    (mkObjNode clsWB none [] []).definition = [("allOf",
      .varr [.vobj [("$ref", .vstr ("#/definitions/" ++ clsW.name))],
        .vobj (ownDefinition (mkObjNode clsWB none [] []))])] ∧
    (clsW.module ++ "." ++ clsW.qualname) ∈
      defsKeys [("m.B", (mkObjNode clsWB none [] [],
          (mkObjNode clsWB none [] []).definition)),
        ("m.A", (mkObjNode clsW none [] [],
          (mkObjNode clsW none [] []).definition))] :=
  c5_inheritance_allof.1 4 clsWB clsW []
    (mkObjNode clsWB none [] [])
    [("m.B", (mkObjNode clsWB none [] [],
        (mkObjNode clsWB none [] []).definition)),
      ("m.A", (mkObjNode clsW none [] [],
        (mkObjNode clsW none [] []).definition))]
    (by rfl) rfl (by decide)

/-- C7: discriminator promotion and resolution order.  If `cls.__dict__`
declares a field whose value's class is exactly `Discriminator` (the first
such, with a truthy name), the constructed `Object` resolves it as the
discriminator and its name appears in the object-level `required` array of
the definition's own fragment even when the field is not independently
marked required; and `getDiscriminatorName` resolves declared
`Discriminator`-typed fields first, falling back to the name configured in
the class's `_meta` (accepted only when it is among the computed
properties). -/
theorem c7_discriminator_promotion :
    (∀ (f : Nat) (c : PyClass) (defs : Defs) (obj : ObjNode) (defs' : Defs)
      (d : String),
      objectInitF f c none defs = some (obj, defs') →
      scanDiscriminator c.dict = some d → d ≠ "" →
      obj.discriminator = some d ∧
      d ∈ obj.requiredList ∧
      lookupKey (ownDefinition obj) "required" =
        some (.varr (obj.requiredList.map .vstr))) ∧
    (∀ (c : PyClass) (props : Fragment),
      getDiscriminatorName c props =
        match scanDiscriminator c.dict with
        | some k => some k
        | none =>
          match c.metaDiscriminator with
          | none => none
          | some d => if d ∈ fragKeys props then some d else none) := by
  constructor
  · intro f c defs obj defs' d h hscan hne
    obtain ⟨f', props, reqL, defs1, hp, hobj, hb⟩ := objectInitF_inv h
    subst hobj
    have hdisc : (mkObjNode c none props reqL).discriminator = some d := by
      simp [mkObjNode, getDiscriminatorName, hscan]
    have hreqmem : d ∈ (mkObjNode c none props reqL).requiredList := by
      simp only [mkObjNode, getDiscriminatorName, hscan]
      by_cases hmem : d ∈ reqL
      · simp [hmem]
      · simp [hne, hmem]
    refine ⟨hdisc, hreqmem, ?_⟩
    rw [lookupKey_ownDefinition_required, mkObjNode_attrs_required]
    have hnonempty : (mkObjNode c none props reqL).requiredList ≠ [] := by
      intro hh
      rw [hh] at hreqmem
      simp at hreqmem
    simp [reqNeqEmptyList, reqVal, hnonempty]
  · intro c props
    rfl

/-- A class `D` (module `m`) declaring `kind = Discriminator()` and a plain
string field. -/
def clsDiscW : PyClass := .mk "m" "D" "D"
  [("kind", .node (.discriminatorF defaultAttrs)), ("species", stringDefault)]
  [] none []

/-- Witness for `c7_discriminator_promotion` at `D`. -/
theorem c7_witness :
    (mkObjNode clsDiscW none
      [("kind", .vobj [("type", .vstr "string")]),
        ("species", .vobj [("type", .vstr "string")])] []).discriminator =
      some "kind" ∧
    "kind" ∈ (mkObjNode clsDiscW none
      [("kind", .vobj [("type", .vstr "string")]),
        ("species", .vobj [("type", .vstr "string")])] []).requiredList ∧
    lookupKey (ownDefinition (mkObjNode clsDiscW none
      [("kind", .vobj [("type", .vstr "string")]),
        ("species", .vobj [("type", .vstr "string")])] [])) "required" =
      some (.varr ((mkObjNode clsDiscW none
        [("kind", .vobj [("type", .vstr "string")]),
          ("species", .vobj [("type", .vstr "string")])] []).requiredList.map
        .vstr)) :=
  c7_discriminator_promotion.1 8 clsDiscW []
    (mkObjNode clsDiscW none
      [("kind", .vobj [("type", .vstr "string")]),
        ("species", .vobj [("type", .vstr "string")])] [])
    [("m.D", (mkObjNode clsDiscW none
        [("kind", .vobj [("type", .vstr "string")]),
          ("species", .vobj [("type", .vstr "string")])] [],
      (mkObjNode clsDiscW none
        [("kind", .vobj [("type", .vstr "string")]),
          ("species", .vobj [("type", .vstr "string")])] []).definition))]
    "kind" (by rfl) rfl (by decide)

end SanicDoc

namespace SanicDoc

/-- C9: termination on representable (hence acyclic) class-and-field
graphs.  Fuel one above the input's size always suffices: `Object`
construction succeeds and returns exactly the registry-free
`pureObject` — in particular a re-construction for an already-registered
name still recomputes properties (the node is rebuilt in full) while the
registry keeps a single entry for that name (only the duplicate insertion
is skipped); and `serialize_schema` terminates on every schema value. -/
theorem c9_termination : ∀ (c : PyClass) (nm : Option String) (defs : Defs),
    ((objectInitF (sizeC c + 1) c nm defs).map Prod.fst =
      some (pureObject c nm)) ∧
    ((defsKeys defs).Nodup → regKeyOf c nm ∈ defsKeys defs →
      (objectInitF (sizeC c + 1) c nm defs).map
        (fun r => List.count (regKeyOf c nm) (defsKeys r.2)) =
        some (List.count (regKeyOf c nm) (defsKeys defs))) ∧
    (∀ s : Schema, (serializeSchemaF (sizeS s + 1) s defs).isSome) := by
  intro c nm defs
  obtain ⟨defs', hrun⟩ := (pureRunAll (sizeC c + 1)).2.2.2.2.1 c nm defs
    (Nat.lt_succ_self _)
  refine ⟨by rw [hrun]; rfl, ?_, ?_⟩
  · intro hnd hmem
    have E := (defsEvolveAll (sizeC c + 1)).2.2.2.2.1 c nm defs
      (pureObject c nm, defs') hrun
    have hnd' := E.2.1 hnd
    have hmem' := E.2.2 _ hmem
    rw [hrun]
    simp only [Option.map]
    rw [List.count_eq_one_of_mem hnd' hmem', List.count_eq_one_of_mem hnd hmem]
  · intro s
    obtain ⟨ds, hs⟩ := (pureRunAll (sizeS s + 1)).1 s defs (Nat.lt_succ_self _)
    rw [hs]
    rfl

/-- Witness for `c9_termination`: re-constructing `A` against a registry
already holding `"m.A"` keeps the count at one. -/
theorem c9_witness :
    (objectInitF (sizeC clsW + 1) clsW none
      [("m.A", (mkObjNode clsW none [] [],
        (mkObjNode clsW none [] []).definition))]).map
      (fun r => List.count (regKeyOf clsW none) (defsKeys r.2)) =
      some (List.count (regKeyOf clsW none)
        (defsKeys [("m.A", (mkObjNode clsW none [] [],
          (mkObjNode clsW none [] []).definition))])) :=
  (c9_termination clsW none
    [("m.A", (mkObjNode clsW none [] [],
      (mkObjNode clsW none [] []).definition))]).2.1 (by decide) (by decide)

/-- A class `C` (module `m`) declaring the same field name `x` both as a
class attribute and as a type hint, each a `String(required=True)`
instance. -/
def clsDup : PyClass := .mk "m" "C" "C"
  [("x", stringRequiredTrue)] [("x", stringRequiredTrue)] none []

/-- C6 counterexample: the `getProperties` dict comprehension iterates
`chain(cls.__dict__.items(), cls.__annotations__.items())` and runs
`getSerializedFields` — and hence the `requiredList.append` side effect —
once per pair, so a field name declared in both sources with
`required: True` in each appears twice in the object-level `required`
array, not exactly once. -/
theorem c6_counterexample :
    (objectInitF 9 clsDup none []).map
      (fun r => lookupKey r.1.definition "required") =
      some (some (.varr [.vstr "x", .vstr "x"])) ∧
    (Val.varr [.vstr "x", .vstr "x"]) ≠ (Val.varr [.vstr "x"]) :=
  ⟨rfl, by simp⟩

/-- C6 (amended): required-field promotion, for a candidate field whose
name occurs exactly once among the chained `__dict__` and `__annotations__`
candidates (and is not underscore-prefixed): if its serialized fragment
carries `required: True` (exactly), the stored per-field fragment is the
fragment with the `required` key popped — in particular it no longer
contains `required` — and the field name appears exactly once in the
object-level `required` array of the definition's own fragment.  A name
declared in both sources is appended once per occurrence instead (see the
counterexample). -/
theorem c6_required_promotion : ∀ (c : PyClass) (k : String) (s : Schema),
    (k, s) ∈ c.dict ++ c.hints →
    List.count k ((c.dict ++ c.hints).map Prod.fst) = 1 →
    underscored k = false →
    lookupKey (pureSerialize s) "required" = some (.vbool true) →
    lookupKey (pureObject c none).properties k =
      some (.vobj (popKey (pureSerialize s) "required")) ∧
    "required" ∉ fragKeys (popKey (pureSerialize s) "required") ∧
    List.count k (pureObject c none).requiredList = 1 ∧
    lookupKey (ownDefinition (pureObject c none)) "required" =
      some (.varr ((pureObject c none).requiredList.map .vstr)) := by
  intro c k s hmem hcount hund hreq
  have hreq' : isReqTrue (lookupKey (pureSerialize s) "required") = true := by
    rw [hreq]
    rfl
  have hhit := purePropsLoop_hit_true (c.dict ++ c.hints) [] [] hmem hcount
    hund hreq'
  have hpureObj : pureObject c none =
      mkObjNode c none (purePropsLoop (c.dict ++ c.hints) [] []).1
        (purePropsLoop (c.dict ++ c.hints) [] []).2 := by
    simp [pureObject]
  rw [hpureObj]
  have hcnt : List.count k (mkObjNode c none
      (purePropsLoop (c.dict ++ c.hints) [] []).1
      (purePropsLoop (c.dict ++ c.hints) [] []).2).requiredList = 1 := by
    apply mkObjNode_requiredList_count
    simpa using hhit.2
  refine ⟨?_, not_mem_fragKeys_popKey _ _, hcnt, ?_⟩
  · rw [mkObjNode_properties]
    exact hhit.1
  · rw [lookupKey_ownDefinition_required, mkObjNode_attrs_required]
    have hnonempty : (mkObjNode c none
        (purePropsLoop (c.dict ++ c.hints) [] []).1
        (purePropsLoop (c.dict ++ c.hints) [] []).2).requiredList ≠ [] := by
      intro hh
      rw [hh] at hcnt
      simp at hcnt
    simp [reqNeqEmptyList, reqVal, hnonempty]

/-- A class `P` (module `m`) with a single field `name = String(required=True)`. -/
def clsPet : PyClass := .mk "m" "P" "P" [("name", stringRequiredTrue)] [] none []

/-- Witness for `c6_required_promotion` at `P`. -/
theorem c6_witness :
    lookupKey (pureObject clsPet none).properties "name" =
      some (.vobj (popKey (pureSerialize stringRequiredTrue) "required")) ∧
    "required" ∉ fragKeys (popKey (pureSerialize stringRequiredTrue) "required") ∧
    List.count "name" (pureObject clsPet none).requiredList = 1 ∧
    lookupKey (ownDefinition (pureObject clsPet none)) "required" =
      some (.varr ((pureObject clsPet none).requiredList.map .vstr)) :=
  c6_required_promotion clsPet "name" stringRequiredTrue
    (by simp [clsPet, PyClass.dict, PyClass.hints])
    (by simp [clsPet, PyClass.dict, PyClass.hints])
    (by decide)
    (by simp [stringRequiredTrue, pureSerialize, pureNodeSerialize,
      stringSerialize, fieldSerialize, defaultAttrs, Attrs.name,
      Attrs.description, Attrs.required, Attrs.choices, reqNeqEmptyList,
      reqVal, lookupKey])

end SanicDoc

namespace SanicDoc

/-- C10: the `required` key is emitted exactly when the node's `required`
attribute differs from the empty list (so `required=False` yields
`"required": false`, not an omitted key); and during `Object` reflection a
uniquely-named candidate fragment whose `required` value is `False` is
stored with the key intact and its name is not promoted by
`getSerializedFields` into the accumulated required list — nor into the
object-level `required` array at all when the class resolves no
discriminator (only the exact value `True` triggers promotion). -/
theorem c10_required_false_kept :
    (∀ n : Node, lookupKey (pureNodeSerialize n) "required" =
      if reqNeqEmptyList (nodeAttrs n).required then
        some (reqVal (nodeAttrs n).required) else none) ∧
    (∀ (c : PyClass) (k : String) (s : Schema),
      (k, s) ∈ c.dict ++ c.hints →
      List.count k ((c.dict ++ c.hints).map Prod.fst) = 1 →
      underscored k = false →
      lookupKey (pureSerialize s) "required" = some (.vbool false) →
      lookupKey (pureObject c none).properties k =
        some (.vobj (pureSerialize s)) ∧
      List.count k (purePropsLoop (c.dict ++ c.hints) [] []).2 = 0 ∧
      (scanDiscriminator c.dict = none → c.metaDiscriminator = none →
        k ∉ (pureObject c none).requiredList)) := by
  constructor
  · exact lookupKey_pureNodeSerialize_required
  · intro c k s hmem hcount hund hreq
    have hreq' : isReqTrue (lookupKey (pureSerialize s) "required") = false := by
      rw [hreq]
      rfl
    have hhit := purePropsLoop_hit_other (c.dict ++ c.hints) [] [] hmem hcount
      hund hreq'
    have hpureObj : pureObject c none =
        mkObjNode c none (purePropsLoop (c.dict ++ c.hints) [] []).1
          (purePropsLoop (c.dict ++ c.hints) [] []).2 := by
      simp [pureObject]
    have hzero : List.count k (purePropsLoop (c.dict ++ c.hints) [] []).2 = 0 := by
      simpa using hhit.2
    refine ⟨?_, hzero, ?_⟩
    · rw [hpureObj, mkObjNode_properties]
      exact hhit.1
    · intro hscan hmeta hk
      rw [hpureObj] at hk
      simp only [mkObjNode, getDiscriminatorName, hscan, hmeta] at hk
      exact (List.count_eq_zero.mp hzero) hk

/-- A class `Q` (module `m`) with a single field `species = String(required=False)`. -/
def clsQ : PyClass := .mk "m" "Q" "Q" [("species", stringRequiredFalse)] [] none []

/-- Witness for `c10_required_false_kept` at `Q`. -/
theorem c10_witness :
    lookupKey (pureObject clsQ none).properties "species" =
      some (.vobj (pureSerialize stringRequiredFalse)) ∧
    List.count "species" (purePropsLoop (clsQ.dict ++ clsQ.hints) [] []).2 = 0 ∧
    "species" ∉ (pureObject clsQ none).requiredList := by
  have h := c10_required_false_kept.2 clsQ "species" stringRequiredFalse
    (by simp [clsQ, PyClass.dict, PyClass.hints])
    (by simp [clsQ, PyClass.dict, PyClass.hints])
    (by decide)
    (by simp [stringRequiredFalse, pureSerialize, pureNodeSerialize,
      stringSerialize, fieldSerialize, defaultAttrs, Attrs.name,
      Attrs.description, Attrs.required, Attrs.choices, reqNeqEmptyList,
      reqVal, lookupKey])
  exact ⟨h.1, h.2.1, h.2.2 rfl rfl⟩

/-- C8 counterexample: `route(response=...)` assigns the sequence field
wholesale.  After `response(200, f)` accumulated one entry, a later
`route(response=[(500, f)])` replaces the list rather than appending, so
the final `response` is `[(500, ...)]` and the previously accumulated
`(200, ...)` entry is gone. -/
theorem c8_counterexample :
    (routeD none none none none none none none
      (some [(500, ⟨.other, none, false, none⟩)])
      (responseD 200 .other none RouteSpec.init)).response =
      [(500, ⟨.other, none, false, none⟩)] ∧
    ([(500, (⟨.other, none, false, none⟩ : RouteField))] :
        List (Nat × RouteField)) ≠
      [(200, ⟨.other, none, false, none⟩), (500, ⟨.other, none, false, none⟩)] := by
  refine ⟨rfl, ?_⟩
  intro h
  have := congrArg List.length h
  simp at this

/-- Every iteration of the `consumes` decorator loop re-assigns
`consumes_content_type = [content_type]`, so with at least one argument the
field ends up holding the call's content type (last write wins across
calls). -/
theorem consumesD_content_type : ∀ (args : List Schema) (rs : RouteSpec)
    (ct : Option String) (loc : String) (rq : Bool),
    (consumesD args ct loc rq rs).consumes_content_type =
      match args with
      | [] => rs.consumes_content_type
      | _ :: _ => some [ct] := by
  intro args
  induction args with
  | nil => intro rs ct loc rq; rfl
  | cons a rest ih =>
    intro rs ct loc rq
    have h := ih { rs with
      consumes := rs.consumes ++ [⟨a, some loc, rq, none⟩],
      consumes_content_type := some [ct] } ct loc rq
    cases rest with
    | nil => rfl
    | cons b rest2 =>
      simp only [consumesD, List.foldl_cons] at h ⊢
      exact h

/-- C8 (amended): scalar `RouteSpec` fields (`summary`, `description`,
`operation`, `exclude`, and the content types `consumes_content_type` /
`produces_content_type`) are last-write-wins; the dedicated decorators
`tag`, `consumes` and `response` append to their sequence fields (in
particular `tag("x")` then `tag("y")` yields `["x","y"]` and `summary("a")`
then `summary("b")` yields `"b"`); but the `route(...)` annotation
overwrites `consumes` and `response` wholesale when they are given, so not
every annotation call appends. -/
theorem c8_accumulation :
    (∀ (rs : RouteSpec) (x y : String),
      (tagD y (tagD x rs)).tags = rs.tags ++ [x, y]) ∧
    (tagD "y" (tagD "x" RouteSpec.init)).tags = ["x", "y"] ∧
    (∀ (rs : RouteSpec) (a b : String),
      (summaryD b (summaryD a rs)).summary = some b) ∧
    (summaryD "b" (summaryD "a" RouteSpec.init)).summary = some "b" ∧
    (∀ (rs : RouteSpec) (a b : String),
      (descriptionD b (descriptionD a rs)).description = some b) ∧
    (∀ (rs : RouteSpec) (a b : String),
      (operationD b (operationD a rs)).operation = some b) ∧
    (∀ (rs : RouteSpec) (a b : Bool),
      (excludeD b (excludeD a rs)).exclude = some b) ∧
    (∀ (rs : RouteSpec) (st : Nat) (fld : Schema) (d : Option String),
      (responseD st fld d rs).response =
        rs.response ++ [(st, ⟨fld, none, false, d⟩)]) ∧
    (∀ (args : List Schema) (rs : RouteSpec) (ct : Option String)
      (loc : String) (rq : Bool),
      (consumesD args ct loc rq rs).consumes =
        rs.consumes ++ args.map (fun a => ⟨a, some loc, rq, none⟩)) ∧
    (∀ (a : Schema) (args : List Schema) (rs : RouteSpec)
      (ct : Option String) (loc : String) (rq : Bool),
      (consumesD (a :: args) ct loc rq rs).consumes_content_type =
        some [ct]) ∧
    (∀ (rs : RouteSpec) (a₁ a₂ : Schema) (d₁ d₂ ct₁ ct₂ : Option String),
      (producesD [a₂] d₂ ct₂ (producesD [a₁] d₁ ct₁ rs)).produces_content_type =
        some [ct₂] ∧
      (producesD [a₂] d₂ ct₂ (producesD [a₁] d₁ ct₁ rs)).produces =
        some ⟨a₂, none, false, d₂⟩) ∧
    (∀ (rs : RouteSpec) (l₁ l₂ : List (Option String)),
      (routeD none none none none (some l₂) none none none
        (routeD none none none none (some l₁) none none none
          rs)).consumes_content_type = some l₂) ∧
    (∀ (rs : RouteSpec) (l₁ l₂ : List (Option String)),
      (routeD none none none none none (some l₂) none none
        (routeD none none none none none (some l₁) none none
          rs)).produces_content_type = some l₂) ∧
    (∀ (rs : RouteSpec) (l : List (Nat × RouteField)),
      (routeD none none none none none none none (some l) rs).response = l) ∧
    (∀ (rs : RouteSpec) (l : List RouteField),
      (routeD none none (some l) none none none none none rs).consumes = l) :=
  ⟨fun rs x y => by simp [tagD], rfl, fun rs a b => rfl, rfl,
    fun rs a b => rfl, fun rs a b => rfl, fun rs a b => rfl,
    fun rs st fld d => rfl, consumesD_consumes,
    fun a args rs ct loc rq => by
      simpa using consumesD_content_type (a :: args) rs ct loc rq,
    fun rs a₁ a₂ d₁ d₂ ct₁ ct₂ => ⟨rfl, rfl⟩,
    fun rs l₁ l₂ => rfl, fun rs l₁ l₂ => rfl, fun rs l => rfl,
    fun rs l => rfl⟩

end SanicDoc
